import Mathlib

/-!
Verification of the snapshot diff and removal-verification engine.

The Python modules `monitor/diff_utils.py`, `monitor/removal_verifier.py` and
`monitor/run_all.py` are shallowly embedded below.  Dataframes become `Table`
values (a list of column names plus rows of string cells), dict-records become
association lists, and the HTTP layer of the removal verifier is abstracted by
an explicit probe function `String → Except String Resp` standing for
`requests.get` (an `Except.error` models a raised `requests.RequestException`).
Definitions marked `spec` formalise the wording of the specification and are
compared with the code-derived definitions in the theorems.
-/

/-! ### String helpers (embedding of `_collapse_ws`, `str.lower`, `in`) -/

/-- Whitespace characters recognised by Python `str.strip` / `\s` (ASCII). -/
def isWsChar (c : Char) : Bool :=
  c == ' ' || c == '\t' || c == '\n' || c == '\r' || c == '\x0b' || c == '\x0c'

/-- Python `str.strip()` on a character list. -/
def stripChars (l : List Char) : List Char :=
  ((l.dropWhile isWsChar).reverse.dropWhile isWsChar).reverse

/-- Collapse each maximal run of whitespace to a single space; the flag records
whether the previous character was whitespace. -/
def collapseAux : Bool → List Char → List Char
  | _, [] => []
  | inWs, c :: rest =>
    if isWsChar c then
      if inWs then collapseAux true rest else ' ' :: collapseAux true rest
    else c :: collapseAux false rest

/-- Python `re.sub(r"\s+", " ", s)` on a character list. -/
def collapseRuns (l : List Char) : List Char := collapseAux false l

/-- Embedding of `diff_utils._collapse_ws`: strip, then collapse whitespace runs. -/
def collapseWs (s : String) : String :=
  String.mk (collapseRuns (stripChars s.toList))

/-- ASCII lower-casing of one character (Python `str.lower` on ASCII data). -/
def lowerChar (c : Char) : Char :=
  if 65 ≤ c.toNat && c.toNat ≤ 90 then Char.ofNat (c.toNat + 32) else c

/-- Lower-case a character list. -/
def lowerList (l : List Char) : List Char := l.map lowerChar

/-- Holds when `n` is a prefix of `h` (computable, on character lists). -/
def isPrefixL : List Char → List Char → Bool
  | [], _ => true
  | _ :: _, [] => false
  | a :: as, b :: bs => a == b && isPrefixL as bs

/-- Holds when `n` occurs as a contiguous substring of `h` (Python `n in h`). -/
def isInfixL (n : List Char) : List Char → Bool
  | [] => isPrefixL n []
  | c :: rest => isPrefixL n (c :: rest) || isInfixL n rest

/-- Lexicographic code-point comparison, the order Python `sorted` uses on `str`. -/
def charListLe : List Char → List Char → Bool
  | [], _ => true
  | _ :: _, [] => false
  | a :: as, b :: bs =>
    if a.toNat < b.toNat then true
    else if b.toNat < a.toNat then false
    else charListLe as bs

/-- String comparison used when sorting column names. -/
def strLe (a b : String) : Bool := charListLe a.toList b.toList

/-- Insert into a sorted list of strings. -/
def insSorted (x : String) : List String → List String
  | [] => [x]
  | y :: ys => if strLe x y then x :: y :: ys else y :: insSorted x ys

/-- Insertion sort on strings: the `sorted(...)` of `_align_columns_for_compare`. -/
def sortStrs : List String → List String
  | [] => []
  | x :: xs => insSorted x (sortStrs xs)

/-! ### Table model (embedding of a pandas `DataFrame` of strings) -/

/-- One dataframe row: the cell values, positionally aligned with the columns. -/
abbrev Row := List String

/-- A dataframe: named columns and rows of string cells. -/
structure Table where
  cols : List String
  rows : List Row
  deriving DecidableEq, Repr

/-- Model of `pd.DataFrame()`: no columns, no rows. -/
def emptyTable : Table := ⟨[], []⟩

/-- Model of `df.empty`: true when either axis has length zero. -/
def Table.isEmptyB (t : Table) : Bool := t.rows.isEmpty || t.cols.isEmpty

/-- Index of the first column named `c`. -/
def colIdx (c : String) : List String → Option Nat
  | [] => none
  | x :: xs => if x == c then some 0 else (colIdx c xs).map (· + 1)

/-- Value of column `c` in row `r` (missing columns read as the empty string,
matching `reindex(..., fill_value="")` semantics used at every access site). -/
def cellAt (cols : List String) (r : Row) (c : String) : String :=
  match colIdx c cols with
  | some i => r.getD i ""
  | none => ""

/-- Primary-key value of a row: the tuple of its key-column cells. -/
def keyAt (cols : List String) (r : Row) (pk : List String) : List String :=
  pk.map (cellAt cols r)

/-- The list of primary-key values of a table's rows. -/
def tableKeys (t : Table) (pk : List String) : List (List String) :=
  t.rows.map (fun r => keyAt t.cols r pk)

/-- Model of `for c in cs: if c not in df.columns: df[c] = ""` — append each missing
column with empty-string values. -/
def addMissingCols (t : Table) (cs : List String) : Table :=
  cs.foldl
    (fun acc c =>
      if c ∈ acc.cols then acc
      else ⟨acc.cols ++ [c], acc.rows.map (fun r => r ++ [""])⟩)
    t

/-- Model of `df.set_index(pk).loc[k]` for a unique index: the first row whose key is `k`
(total function; returns `[]` when no row matches). -/
def findRow (t : Table) (pk : List String) (k : List String) : Row :=
  match t.rows.find? (fun r => keyAt t.cols r pk == k) with
  | some r => r
  | none => []

/-! ### `diff_utils.normalize_df` -/

/-- Model of `df.drop_duplicates(subset=ks, keep="first")`: keep the first row for each
primary-key value, in input row order. -/
def keepFirstByKey (cols ks : List String) : List (List String) → List Row → List Row
  | _, [] => []
  | seen, r :: rs =>
    let k := keyAt cols r ks
    if k ∈ seen then keepFirstByKey cols ks seen rs
    else r :: keepFirstByKey cols ks (k :: seen) rs

/-- Embedding of `diff_utils.normalize_df`.  Cells are already strings in the
model, so `astype(str).fillna("")` is the identity; the remaining steps are
key-column synthesis, whitespace collapsing, duplicate-key dropping (first in
input order) and ignore-field synthesis, in source order. -/
def normalize_df (df : Table) (key_cols : List String) (ignore_fields : List String) : Table :=
  if df.isEmptyB then ⟨key_cols, []⟩
  else
    let t1 := addMissingCols df key_cols
    let t2 : Table := ⟨t1.cols, t1.rows.map (fun r => r.map collapseWs)⟩
    let t3 : Table := ⟨t2.cols, keepFirstByKey t2.cols key_cols [] t2.rows⟩
    addMissingCols t3 ignore_fields

/-! ### `diff_utils.compute_diff` -/

/-- Model of `sorted(set(prev.columns).union(set(curr.columns)))`. -/
def allColsOf (p c : Table) : List String := sortStrs ((p.cols ++ c.cols).dedup)

/-- Comparison columns of `_align_columns_for_compare`: all columns of either
table minus the ignored fields, with every key column moved to the front
(`compare_cols.remove(k); compare_cols.insert(0, k)`). -/
def compareColsOf (p c : Table) (pk ig : List String) : List String :=
  pk.foldl (fun cc k => k :: cc.erase k)
    ((allColsOf p c).filter (fun x => decide (x ∉ ig)))

/-- Model of `df.reindex(columns=ccols, fill_value="")` applied to one row. -/
def alignedRow (cols : List String) (ccols : List String) (r : Row) : Row :=
  ccols.map (cellAt cols r)

/-- Model of `(prev_common != curr_common).any(axis=1)` for the row with key `k`. -/
def rowChangedB (p c : Table) (ccols pk : List String) (k : List String) : Bool :=
  ((alignedRow p.cols ccols (findRow p pk k)).zip
      (alignedRow c.cols ccols (findRow c pk k))).any (fun q => q.1 != q.2)

/-- The `changed_keys` list: keys present in both tables whose aligned rows differ. -/
def changedKeysOf (p c : Table) (pk ig : List String) : List (List String) :=
  ((tableKeys p pk).filter (fun k => decide (k ∈ tableKeys c pk))).filter
    (rowChangedB p c (compareColsOf p c pk ig) pk)

/-- Model of `left.merge(right, on=pk, suffixes=("_before", "_after"))`: inner join on
the key columns; overlapping non-key columns are suffixed, key columns appear
once, and the right table contributes its non-key columns. -/
def mergeOn (l r : Table) (pk : List String) : Table :=
  ⟨(l.cols.map (fun c => if decide (c ∉ pk) && decide (c ∈ r.cols) then c ++ "_before" else c))
      ++ ((r.cols.filter (fun c => decide (c ∉ pk))).map
          (fun c => if decide (c ∈ l.cols) then c ++ "_after" else c)),
    l.rows.flatMap (fun lr =>
      (r.rows.filter (fun rr => keyAt r.cols rr pk == keyAt l.cols lr pk)).map
        (fun rr => lr ++ (r.cols.filter (fun c => decide (c ∉ pk))).map (cellAt r.cols rr)))⟩

/-- The `modified` partition: the side-by-side merge of the changed rows, or an
empty frame when nothing changed. -/
def modifiedOf (p c : Table) (pk ig : List String) : Table :=
  let ck := changedKeysOf p c pk ig
  if ck.isEmpty then emptyTable
  else mergeOn ⟨p.cols, ck.map (findRow p pk)⟩ ⟨c.cols, ck.map (findRow c pk)⟩ pk

/-- The `added` partition: rows of `c` whose primary key does not occur in `p`
(the `merge(..., indicator=True)` / `left_only` selection). -/
def addedOf (p c : Table) (pk : List String) : Table :=
  ⟨c.cols, c.rows.filter (fun r => decide (keyAt c.cols r pk ∉ tableKeys p pk))⟩

/-- The `removed` partition: rows of `p` whose primary key does not occur in `c`. -/
def removedOf (p c : Table) (pk : List String) : Table :=
  ⟨p.cols, p.rows.filter (fun r => decide (keyAt p.cols r pk ∉ tableKeys c pk))⟩

/-- The three partitions returned by `compute_diff`. -/
structure DiffResult where
  added : Table
  removed : Table
  modified : Table
  deriving DecidableEq, Repr

/-- Embedding of `diff_utils.compute_diff`, including the in-place mutation of
its arguments: the first two components are the states of the caller's `prev`
and `curr` dataframes after the call (the `prev[k] = ""` loop adds missing key
columns in place once the degenerate empty branches are passed). -/
def compute_diff_full (prev curr : Table) (pk ig : List String) :
    Table × Table × DiffResult :=
  if prev.isEmptyB && curr.isEmptyB then
    (prev, curr, ⟨emptyTable, emptyTable, emptyTable⟩)
  else if prev.isEmptyB then (prev, curr, ⟨curr, emptyTable, emptyTable⟩)
  else if curr.isEmptyB then (prev, curr, ⟨emptyTable, prev, emptyTable⟩)
  else
    let p := addMissingCols prev pk
    let c := addMissingCols curr pk
    (p, c, ⟨addedOf p c pk, removedOf p c pk, modifiedOf p c pk ig⟩)

/-- The `DiffResult` of `compute_diff` (ignoring the argument mutation). -/
def compute_diff (prev curr : Table) (pk ig : List String) : DiffResult :=
  (compute_diff_full prev curr pk ig).2.2

/-! ### `diff_utils.write_diff_csvs` -/

/-- CSV field escaping as `DataFrame.to_csv` performs it (QUOTE_MINIMAL). -/
def csvField (s : String) : String :=
  if s.toList.any (fun c => c == ',' || c == '"' || c == '\n' || c == '\r') then
    "\"" ++ String.mk (s.toList.flatMap (fun c => if c == '"' then ['"', '"'] else [c])) ++ "\""
  else s

/-- One CSV line. -/
def csvLine (cells : List String) : String :=
  String.intercalate "," (cells.map csvField) ++ "\n"

/-- Model of `df.to_csv(path, index=False)`: header line then one line per row. -/
def csvRender (t : Table) : String :=
  csvLine t.cols ++ String.join (t.rows.map csvLine)

/-- Embedding of `diff_utils.write_diff_csvs`: the list of `(path, content)`
pairs written.  A partition produces a file exactly when the frame is
non-empty, in the fixed order added, removed, modified. -/
def write_diff_csvs (diff : DiffResult) (outPfx : String) : List (String × String) :=
  (if diff.added.isEmptyB then [] else [(outPfx ++ "__added.csv", csvRender diff.added)])
    ++ (if diff.removed.isEmptyB then [] else [(outPfx ++ "__removed.csv", csvRender diff.removed)])
    ++ (if diff.modified.isEmptyB then [] else [(outPfx ++ "__modified.csv", csvRender diff.modified)])

/-! ### `removal_verifier` -/

/-- An HTTP response as the verifier consumes it. -/
structure Resp where
  status : Nat
  text : String
  deriving DecidableEq, Repr

/-- The network layer: `requests.get` with the shared headers and timeout.
`Except.error msg` models a raised `requests.RequestException`, exactly the
two outcomes `_http_get` distinguishes. -/
abbrev Probe := String → Except String Resp

/-- The `_NAE_MISSING_MARKERS` list. -/
def naeMissingMarkers : List String :=
  ["page you are looking for might have been removed",
   "resource you are looking for has been removed",
   "page cannot be found"]

/-- The `_NAM_MISSING_MARKERS` list. -/
def namMissingMarkers : List String := ["page not found"]

/-- The `_NAS_MISSING_MARKERS` list. -/
def nasMissingMarkers : List String := ["page not found"]

/-- The `_AWARD_VERIFIERS` table as the marker lists it dispatches on:
`some markers` when the award id has a registered verifier. -/
def awardMarkers (award_id : String) : Option (List String) :=
  if award_id = "3008" then some naeMissingMarkers
  else if award_id = "1909" then some namMissingMarkers
  else if award_id = "2023" then some nasMissingMarkers
  else none

/-- Model of `_response_indicates_missing`: HTTP 404, or any marker phrase occurring in
the lower-cased body text. -/
def responseIndicatesMissing (resp : Resp) (markers : List String) : Bool :=
  resp.status == 404
    || markers.any (fun m => isInfixL m.toList (lowerList resp.text.toList))

/-- Model of `_generic_verifier`: verdict (`some true` missing, `some false` live,
`none` unknown) plus the diagnostic detail string. -/
def genericVerifier (probe : Probe) (url : String) (markers : List String) :
    Option Bool × String :=
  match probe url with
  | Except.error e => (none, "request_error=" ++ e)
  | Except.ok resp =>
    if responseIndicatesMissing resp markers then (some true, "status=" ++ toString resp.status)
    else if resp.status == 200 then (some false, "status=200")
    else (none, "status=" ++ toString resp.status)

/-- One dict-record of the removed table: insertion-ordered key/value pairs. -/
abbrev Rec := List (String × String)

/-- Model of `row.get(k, "")`. -/
def getField (r : Rec) (k : String) : String :=
  match r.find? (fun p => p.1 == k) with
  | some p => p.2
  | none => ""

/-- Model of `row[k] = v` on a Python dict: update in place if the key exists, else
append at the end (insertion order preserved). -/
def setField (r : Rec) (k v : String) : Rec :=
  if r.any (fun p => p.1 == k) then r.map (fun p => if p.1 == k then (k, v) else p)
  else r ++ [(k, v)]

/-- The three accumulators of `verify_removed_rows`. -/
structure VerifyOut where
  confirmed : List Rec
  stillPresent : List Rec
  errors : List Rec
  deriving DecidableEq, Repr

/-- Pointwise concatenation of outcome accumulators. -/
def VerifyOut.app (a b : VerifyOut) : VerifyOut :=
  ⟨a.confirmed ++ b.confirmed, a.stillPresent ++ b.stillPresent, a.errors ++ b.errors⟩

/-- Routing of one record once the verifier returned `(verdict, detail)`: the
detail annotation first, then the status, into the branch's accumulators
(`check_error` rows land in both `errors` and `confirmed`). -/
def verdictOut (r : Rec) (vd : Option Bool × String) : VerifyOut :=
  match vd with
  | (some true, d) =>
    ⟨[setField (setField r "double_check_detail" d) "double_check_status"
        "confirmed_missing"], [], []⟩
  | (some false, d) =>
    ⟨[], [setField (setField r "double_check_detail" d) "double_check_status"
        "still_present"], []⟩
  | (none, d) =>
    ⟨[setField (setField r "double_check_detail" d) "double_check_status" "check_error"],
      [],
      [setField (setField r "double_check_detail" d) "double_check_status" "check_error"]⟩

/-- The body of the per-row loop of `verify_removed_rows`: where one record is
routed.  `verifier` is `none` when the award has no registered check. -/
def rowOut (verifier : Option (String → Option Bool × String)) (r : Rec) : VerifyOut :=
  if getField r "profile_url" = "" then
    ⟨[setField r "double_check_status" "no_url"], [], []⟩
  else
    match verifier with
    | none => ⟨[setField r "double_check_status" "not_supported"], [], []⟩
    | some v => verdictOut r (v (getField r "profile_url"))

/-- The loop of `verify_removed_rows` over the removed records. -/
def verifyRows (verifier : Option (String → Option Bool × String)) : List Rec → VerifyOut
  | [] => ⟨[], [], []⟩
  | r :: rs => (rowOut verifier r).app (verifyRows verifier rs)

/-- Embedding of `removal_verifier.verify_removed_rows`: dispatch the award's
verifier (closed over the probe) and fold the per-row routing. -/
def verify_removed_rows (award_id : String) (probe : Probe) (rows : List Rec) : VerifyOut :=
  verifyRows ((awardMarkers award_id).map (fun ms url => genericVerifier probe url ms)) rows

/-- The single record each input row contributes to `confirmed ++ still_present`. -/
def routedRow (verifier : Option (String → Option Bool × String)) (r : Rec) : Rec :=
  ((rowOut verifier r).confirmed ++ (rowOut verifier r).stillPresent).getD 0 []

/-! ### `run_all.main` (the Run Coordinator loop) -/

/-- One configured source as the coordinator loop sees it: which stages succeed
and the artifact its diff would produce.  A `false` in `scrapeOk`/`loadOk`
models the failures those stages report or raise; a `false` in
`diffOk`/`verifyOk`/`writeOk` models an unexpected exception raised inside
`compute_diff` / `verify_removed_rows` / `write_diff_csvs`. -/
structure SourceSpec where
  scrapeOk : Bool
  loadOk : Bool
  diffOk : Bool
  verifyOk : Bool
  writeOk : Bool
  artifact : String
  deriving DecidableEq, Repr

/-- The summary state the loop threads: report lines, attached artifact files,
and the any-failures flag. -/
structure RunState where
  lines : List String
  files : List String
  anyFailures : Bool
  deriving DecidableEq, Repr

/-- One iteration of the loop in `run_all.main`.  Scraper failure and invalid
output are recorded and skipped; `load_latest_two` sits inside its own
`try/except` whose handler records the failure and continues; the calls to
`compute_diff`, `verify_removed_rows` and `write_diff_csvs` are not guarded,
so an exception there escapes the loop (`Except.error`). -/
def processSource (st : RunState) (s : SourceSpec) : Except String RunState :=
  if s.scrapeOk = false then
    Except.ok ⟨st.lines ++ ["scraper FAILED"], st.files, true⟩
  else if s.loadOk = false then
    Except.ok ⟨st.lines ++ ["failed to load snapshots"], st.files, true⟩
  else if s.diffOk = false then Except.error "unhandled exception in compute_diff"
  else if s.verifyOk = false then Except.error "unhandled exception in verify_removed_rows"
  else if s.writeOk = false then Except.error "unhandled exception in write_diff_csvs"
  else
    Except.ok ⟨st.lines ++ [s.artifact ++ " diffed"], st.files ++ [s.artifact], st.anyFailures⟩

/-- The source loop of `run_all.main`: an `Except.error` is the unhandled
exception that aborts the whole run (caught only by the top-level handler of
`__main__`, which exits without notifying). -/
def runAllMain (srcs : List SourceSpec) : Except String RunState :=
  srcs.foldlM processSource ⟨[], [], false⟩

/-! ### Specification-side definitions (formalised from the claims' wording,
for comparison with the code-derived definitions above) -/

/-- Spec: a table is normalized when the key columns are declared and present,
columns are unique, rows are rectangular, and primary keys are unique. -/
def Normalized (pk : List String) (t : Table) : Prop :=
  pk ≠ [] ∧ (∀ k ∈ pk, k ∈ t.cols) ∧ t.cols.Nodup
    ∧ (∀ r ∈ t.rows, r.length = t.cols.length) ∧ (tableKeys t pk).Nodup

instance (pk : List String) (t : Table) : Decidable (Normalized pk t) := by
  unfold Normalized; infer_instance

/-- Spec: keys of the `added` partition — keys of `curr` absent from `prev`. -/
def specAddedKeys (prev curr : Table) (pk : List String) : List (List String) :=
  (tableKeys curr pk).filter (fun k => decide (k ∉ tableKeys prev pk))

/-- Spec: keys of the `removed` partition — keys of `prev` absent from `curr`. -/
def specRemovedKeys (prev curr : Table) (pk : List String) : List (List String) :=
  (tableKeys prev pk).filter (fun k => decide (k ∉ tableKeys curr pk))

/-- Spec: key `k` has at least one non-ignored field differing between the two
snapshots (fields range over the union of both schemas; a field absent from
one schema reads as the empty string there). -/
def specChangedB (prev curr : Table) (pk ig : List String) (k : List String) : Bool :=
  ((prev.cols ++ curr.cols).dedup).any (fun c =>
    decide (c ∉ ig)
      && (cellAt prev.cols (findRow prev pk k) c != cellAt curr.cols (findRow curr pk k) c))

/-- Spec: keys of the `modified` partition — present in both snapshots with at
least one non-ignored field differing. -/
def specModifiedKeys (prev curr : Table) (pk ig : List String) : List (List String) :=
  (tableKeys prev pk).filter (fun k =>
    decide (k ∈ tableKeys curr pk) && specChangedB prev curr pk ig k)

/-- Spec: the merged record for a modified key — the full previous row followed
by the current row's non-key cells. -/
def specModRow (prev curr : Table) (pk : List String) (k : List String) : Row :=
  findRow prev pk k
    ++ (curr.cols.filter (fun c => decide (c ∉ pk))).map (cellAt curr.cols (findRow curr pk k))

/-- Concrete normalized tables used to instantiate witness theorems. -/
def prevW : Table := ⟨["k", "v"], [["1", "a"], ["2", "b"]]⟩

/-- Second concrete table for the witness theorems. -/
def currW : Table := ⟨["k", "v"], [["2", "c"], ["3", "d"]]⟩

/-- One-row tables exercising the modified partition. -/
def prevM : Table := ⟨["k", "v"], [["1", "a"]]⟩

/-- Current-snapshot counterpart of `prevM` with a changed field. -/
def currM : Table := ⟨["k", "v"], [["1", "b"]]⟩

/-! ### Helper lemmas -/

theorem mem_insSorted (x y : String) (l : List String) :
    x ∈ insSorted y l ↔ x = y ∨ x ∈ l := by
  induction l with
  | nil => simp [insSorted]
  | cons a t ih =>
    by_cases h : strLe y a
    · simp [insSorted, h]
    · simp only [insSorted, if_neg h, List.mem_cons, ih]
      tauto

theorem mem_sortStrs (x : String) (l : List String) : x ∈ sortStrs l ↔ x ∈ l := by
  induction l with
  | nil => simp [sortStrs]
  | cons a t ih => simp [sortStrs, mem_insSorted, ih]

theorem mem_foldl_pin (pk : List String) (l : List String) (x : String) :
    x ∈ pk.foldl (fun cc k => k :: cc.erase k) l ↔ x ∈ pk ∨ x ∈ l := by
  induction pk generalizing l with
  | nil => simp
  | cons k ks ih =>
    rw [List.foldl_cons, ih]
    constructor
    · rintro (h | h)
      · exact Or.inl (List.mem_cons_of_mem _ h)
      · rcases List.mem_cons.mp h with h | h
        · exact Or.inl (h ▸ List.mem_cons_self _ _)
        · exact Or.inr (List.mem_of_mem_erase h)
    · rintro (h | h)
      · rcases List.mem_cons.mp h with h | h
        · exact Or.inr (h ▸ List.mem_cons_self _ _)
        · exact Or.inl h
      · by_cases hxk : x = k
        · exact Or.inr (hxk ▸ List.mem_cons_self _ _)
        · exact Or.inr (List.mem_cons_of_mem _ ((List.mem_erase_of_ne hxk).mpr h))

theorem mem_compareColsOf (p c : Table) (pk ig : List String) (x : String) :
    x ∈ compareColsOf p c pk ig ↔ x ∈ pk ∨ (x ∈ p.cols ++ c.cols ∧ x ∉ ig) := by
  unfold compareColsOf
  rw [mem_foldl_pin]
  simp [List.mem_filter, mem_sortStrs, allColsOf, List.mem_dedup]

theorem map_filter_comp {α β : Type} (f : α → β) (p : β → Bool) (l : List α) :
    (l.filter (fun x => p (f x))).map f = (l.map f).filter p := by
  induction l with
  | nil => rfl
  | cons a t ih =>
    by_cases h : p (f a) <;> simp [List.filter_cons, h, ih]

theorem find_key_nodup {α β : Type} [BEq β] [LawfulBEq β] (f : α → β) (rows : List α) (r : α)
    (hnd : (rows.map f).Nodup) (hr : r ∈ rows) :
    rows.find? (fun x => f x == f r) = some r := by
  induction rows with
  | nil => cases hr
  | cons a t ih =>
    simp only [List.map_cons, List.nodup_cons] at hnd
    rcases List.mem_cons.mp hr with h | h
    · subst h
      exact List.find?_cons_of_pos _ (by simp)
    · by_cases hfa : f a = f r
      · exact absurd (hfa ▸ List.mem_map_of_mem f h) hnd.1
      · rw [List.find?_cons_of_neg _ (by simpa using hfa)]
        exact ih hnd.2 h

theorem findRow_key_self (t : Table) (pk : List String) (r : Row)
    (hnd : (tableKeys t pk).Nodup) (hr : r ∈ t.rows) :
    findRow t pk (keyAt t.cols r pk) = r := by
  unfold findRow
  rw [find_key_nodup (fun x => keyAt t.cols x pk) t.rows r hnd hr]

theorem addMissingCols_of_mem (t : Table) (cs : List String) (h : ∀ x ∈ cs, x ∈ t.cols) :
    addMissingCols t cs = t := by
  induction cs with
  | nil => rfl
  | cons x xs ih =>
    show List.foldl _ _ (x :: xs) = t
    rw [List.foldl_cons, if_pos (h x (List.mem_cons_self _ _))]
    exact ih fun y hy => h y (List.mem_cons_of_mem _ hy)

theorem mem_cols_addMissingCols (t : Table) (cs : List String) (x : String)
    (h : x ∈ cs ∨ x ∈ t.cols) : x ∈ (addMissingCols t cs).cols := by
  induction cs generalizing t with
  | nil =>
    rcases h with h | h
    · exact absurd h (List.not_mem_nil x)
    · exact h
  | cons c cs ih =>
    show x ∈ (List.foldl _ (if c ∈ t.cols then t
      else ⟨t.cols ++ [c], t.rows.map (fun r => r ++ [""])⟩) cs).cols
    by_cases hc : c ∈ t.cols
    · rw [if_pos hc]
      apply ih
      rcases h with h | h
      · rcases List.mem_cons.mp h with h | h
        · exact Or.inr (h ▸ hc)
        · exact Or.inl h
      · exact Or.inr h
    · rw [if_neg hc]
      apply ih
      rcases h with h | h
      · rcases List.mem_cons.mp h with h | h
        · exact Or.inr (by simp [h])
        · exact Or.inl h
      · exact Or.inr (by simp [h])

theorem getD_append_empty (r : List String) (i : Nat) :
    (r ++ [""]).getD i "" = r.getD i "" := by
  induction r generalizing i with
  | nil =>
    cases i with
    | zero => rfl
    | succ n => cases n <;> rfl
  | cons a t ih =>
    cases i with
    | zero => rfl
    | succ n => exact ih n

theorem colIdx_cons (c a : String) (xs : List String) :
    colIdx c (a :: xs) = if a == c then some 0 else (colIdx c xs).map (· + 1) := rfl

theorem colIdx_append_left (c : String) (l l' : List String) (i : Nat)
    (h : colIdx c l = some i) : colIdx c (l ++ l') = some i := by
  induction l generalizing i with
  | nil => simp [colIdx] at h
  | cons a t ih =>
    rw [colIdx_cons] at h
    rw [List.cons_append, colIdx_cons]
    by_cases hac : (a == c) = true
    · rw [if_pos hac] at h
      rw [if_pos hac]
      exact h
    · rw [if_neg hac] at h
      rw [if_neg hac]
      rcases Option.map_eq_some'.mp h with ⟨j, hj, rfl⟩
      rw [ih j hj]
      rfl

theorem colIdx_isSome_of_mem (c : String) (l : List String) (h : c ∈ l) :
    ∃ i, colIdx c l = some i := by
  induction l with
  | nil => cases h
  | cons a t ih =>
    by_cases hac : a == c
    · exact ⟨0, by simp [colIdx, hac]⟩
    · rcases List.mem_cons.mp h with h | h
      · exact absurd (beq_iff_eq.mpr h.symm) (by simpa using hac)
      · rcases ih h with ⟨i, hi⟩
        exact ⟨i + 1, by simp [colIdx, hac, hi]⟩

theorem cellAt_extend (cols : List String) (c0 k : String) (r : Row) (hk : k ∈ cols) :
    cellAt (cols ++ [c0]) (r ++ [""]) k = cellAt cols r k := by
  rcases colIdx_isSome_of_mem k cols hk with ⟨i, hi⟩
  rw [cellAt, cellAt, colIdx_append_left k cols [c0] i hi, hi]
  exact getD_append_empty r i

theorem keyAt_extend (cols : List String) (c0 : String) (r : Row) (ks : List String)
    (h : ∀ k ∈ ks, k ∈ cols) :
    keyAt (cols ++ [c0]) (r ++ [""]) ks = keyAt cols r ks := by
  unfold keyAt
  exact List.map_congr_left fun k hk => cellAt_extend cols c0 k r (h k hk)

theorem tableKeys_addMissingCols (t : Table) (cs ks : List String)
    (h : ∀ k ∈ ks, k ∈ t.cols) :
    tableKeys (addMissingCols t cs) ks = tableKeys t ks := by
  induction cs generalizing t with
  | nil => rfl
  | cons c cs ih =>
    show tableKeys (List.foldl _ (if c ∈ t.cols then t
      else ⟨t.cols ++ [c], t.rows.map (fun r => r ++ [""])⟩) cs) ks = tableKeys t ks
    by_cases hc : c ∈ t.cols
    · rw [if_pos hc]
      exact ih t h
    · rw [if_neg hc]
      have hstep : tableKeys ⟨t.cols ++ [c], t.rows.map (fun r => r ++ [""])⟩ ks
          = tableKeys t ks := by
        unfold tableKeys
        simp only [List.map_map]
        exact List.map_congr_left fun r _ => keyAt_extend t.cols c r ks h
      rw [← hstep]
      exact ih _ fun k hk => List.mem_append_left _ (h k hk)

theorem keepFirstByKey_nodup (cols ks : List String) (rows : List Row)
    (seen : List (List String)) :
    ((keepFirstByKey cols ks seen rows).map (fun r => keyAt cols r ks)).Nodup
    ∧ ∀ x ∈ (keepFirstByKey cols ks seen rows).map (fun r => keyAt cols r ks), x ∉ seen := by
  induction rows generalizing seen with
  | nil => simp [keepFirstByKey]
  | cons r rs ih =>
    by_cases h : keyAt cols r ks ∈ seen
    · simpa [keepFirstByKey, h] using ih seen
    · obtain ⟨hnd, hout⟩ := ih (keyAt cols r ks :: seen)
      refine ⟨?_, ?_⟩
      · simp only [keepFirstByKey, if_neg h, List.map_cons, List.nodup_cons]
        exact ⟨fun hmem => (hout _ hmem) (List.mem_cons_self _ _), hnd⟩
      · intro x hx
        simp only [keepFirstByKey, if_neg h, List.map_cons, List.mem_cons] at hx
        rcases hx with hx | hx
        · exact hx ▸ h
        · exact fun hseen => (hout x hx) (List.mem_cons_of_mem _ hseen)

theorem string_append_right_cancel (a b c : String) (h : a ++ b = a ++ c) : b = c := by
  have hd : a.data ++ b.data = a.data ++ c.data := by
    rw [← String.data_append, ← String.data_append, h]
  have hbc := List.append_cancel_left hd
  cases b
  cases c
  exact congrArg String.mk hbc

/-! ### Claim C4 — `normalize_df` duplicate handling -/

/-- C4 (counterexample): `normalize_df` keeps the first duplicate in input row
order — there is no full-row sort — so two tables holding the same rows in
different orders normalize to different tables.  This refutes the claim that
the surviving row is determined by sorted row content, independent of input
row order. -/
theorem normalize_df_order_dependent_cex :
    (Table.mk ["k", "v"] [["1", "b"], ["1", "a"]]).rows.reverse
        = (Table.mk ["k", "v"] [["1", "a"], ["1", "b"]]).rows
      ∧ normalize_df (Table.mk ["k", "v"] [["1", "b"], ["1", "a"]]) ["k"] []
        ≠ normalize_df (Table.mk ["k", "v"] [["1", "a"], ["1", "b"]]) ["k"] [] := by
  constructor
  · rfl
  · decide

/-- C4 (amended): `normalize_df` drops duplicate primary keys keeping the first
occurrence in input row order (no sort is performed), and primary keys are
unique in its output for every input table. -/
theorem normalize_df_unique_keys (df : Table) (key_cols ignore_fields : List String) :
    (tableKeys (normalize_df df key_cols ignore_fields) key_cols).Nodup := by
  unfold normalize_df
  by_cases h : df.isEmptyB = true
  · simp [h, tableKeys]
  · simp only [h, Bool.false_eq_true, if_false]
    have hsub : ∀ k ∈ key_cols, k ∈ (addMissingCols df key_cols).cols :=
      fun k hk => mem_cols_addMissingCols df key_cols k (Or.inl hk)
    have hkeys := tableKeys_addMissingCols
      (Table.mk (addMissingCols df key_cols).cols
        (keepFirstByKey (addMissingCols df key_cols).cols key_cols []
          ((addMissingCols df key_cols).rows.map (fun r => r.map collapseWs))))
      ignore_fields key_cols hsub
    rw [hkeys]
    exact (keepFirstByKey_nodup (addMissingCols df key_cols).cols key_cols
      ((addMissingCols df key_cols).rows.map (fun r => r.map collapseWs)) []).1

/-! ### Claim C5 — argument mutation of `compute_diff` -/

/-- C5 (counterexample): `compute_diff` is not pure over its arguments — when a
primary-key column is missing from a non-empty input frame, the
`prev[k] = ""` / `curr[k] = ""` loop adds it to the caller's dataframe in
place, so the caller's tables change. -/
theorem compute_diff_mutates_args_cex :
    (compute_diff_full (Table.mk ["a"] [["x"]]) (Table.mk ["a"] [["y"]])
          ["profile_url"] []).1 ≠ Table.mk ["a"] [["x"]]
      ∧ (compute_diff_full (Table.mk ["a"] [["x"]]) (Table.mk ["a"] [["y"]])
          ["profile_url"] []).2.1 ≠ Table.mk ["a"] [["y"]] := by
  decide

/-- C5 (amended): `normalize_df` copies its input and never mutates it (it is a
pure function in this embedding by construction), and `compute_diff` leaves
both caller tables unchanged whenever each already contains every primary-key
column; only a missing key column triggers the in-place column insertion. -/
theorem compute_diff_args_unchanged_when_keys_present (prev curr : Table)
    (pk ig : List String)
    (hp : ∀ k ∈ pk, k ∈ prev.cols) (hc : ∀ k ∈ pk, k ∈ curr.cols) :
    (compute_diff_full prev curr pk ig).1 = prev
      ∧ (compute_diff_full prev curr pk ig).2.1 = curr := by
  unfold compute_diff_full
  split
  · exact ⟨rfl, rfl⟩
  · split
    · exact ⟨rfl, rfl⟩
    · split
      · exact ⟨rfl, rfl⟩
      · exact ⟨addMissingCols_of_mem prev pk hp, addMissingCols_of_mem curr pk hc⟩

/-- C5 (witness): the amended theorem applied at concrete tables that carry
their primary-key column. -/
theorem compute_diff_args_unchanged_witness :
    (compute_diff_full (Table.mk ["k"] [["1"]]) (Table.mk ["k"] [["2"]]) ["k"] []).1
        = Table.mk ["k"] [["1"]]
      ∧ (compute_diff_full (Table.mk ["k"] [["1"]]) (Table.mk ["k"] [["2"]]) ["k"] []).2.1
        = Table.mk ["k"] [["2"]] :=
  compute_diff_args_unchanged_when_keys_present (Table.mk ["k"] [["1"]])
    (Table.mk ["k"] [["2"]]) ["k"] [] (by decide) (by decide)

/-! ### Claim C9 — the Diff Writer -/

/-- C9: `write_diff_csvs` emits a file for a partition exactly when that
partition is non-empty, and the content written for each partition's path is
uniquely determined by the `DiffResult` and prefix (so two calls on identical
inputs produce identical artifact content, and empty partitions produce zero
files). -/
theorem write_diff_csvs_files_iff (diff : DiffResult) (outPfx : String) :
    ((∃ content, (outPfx ++ "__added.csv", content) ∈ write_diff_csvs diff outPfx)
        ↔ diff.added.isEmptyB = false)
      ∧ ((∃ content, (outPfx ++ "__removed.csv", content) ∈ write_diff_csvs diff outPfx)
        ↔ diff.removed.isEmptyB = false)
      ∧ ((∃ content, (outPfx ++ "__modified.csv", content) ∈ write_diff_csvs diff outPfx)
        ↔ diff.modified.isEmptyB = false)
      ∧ (∀ content, (outPfx ++ "__added.csv", content) ∈ write_diff_csvs diff outPfx
          → content = csvRender diff.added)
      ∧ (∀ content, (outPfx ++ "__removed.csv", content) ∈ write_diff_csvs diff outPfx
          → content = csvRender diff.removed)
      ∧ (∀ content, (outPfx ++ "__modified.csv", content) ∈ write_diff_csvs diff outPfx
          → content = csvRender diff.modified) := by
  have har : outPfx ++ "__added.csv" ≠ outPfx ++ "__removed.csv" := fun h =>
    absurd (string_append_right_cancel _ _ _ h) (by decide)
  have ham : outPfx ++ "__added.csv" ≠ outPfx ++ "__modified.csv" := fun h =>
    absurd (string_append_right_cancel _ _ _ h) (by decide)
  have hrm : outPfx ++ "__removed.csv" ≠ outPfx ++ "__modified.csv" := fun h =>
    absurd (string_append_right_cancel _ _ _ h) (by decide)
  by_cases ha : diff.added.isEmptyB
    <;> by_cases hr : diff.removed.isEmptyB
    <;> by_cases hm : diff.modified.isEmptyB
    <;> simp [write_diff_csvs, ha, hr, hm, Prod.ext_iff, har, ham, hrm,
          har.symm, ham.symm, hrm.symm]

/-- C9 (witness): the writer characterisation applied at a concrete
`DiffResult` with one non-empty partition. -/
theorem write_diff_csvs_files_iff_witness :
    ((∃ content, ("p__added.csv", content)
          ∈ write_diff_csvs (DiffResult.mk (Table.mk ["k"] [["1"]]) emptyTable emptyTable) "p")
        ↔ (Table.mk ["k"] [["1"]]).isEmptyB = false)
      ∧ ((∃ content, ("p__removed.csv", content)
          ∈ write_diff_csvs (DiffResult.mk (Table.mk ["k"] [["1"]]) emptyTable emptyTable) "p")
        ↔ emptyTable.isEmptyB = false)
      ∧ ((∃ content, ("p__modified.csv", content)
          ∈ write_diff_csvs (DiffResult.mk (Table.mk ["k"] [["1"]]) emptyTable emptyTable) "p")
        ↔ emptyTable.isEmptyB = false)
      ∧ (∀ content, ("p__added.csv", content)
          ∈ write_diff_csvs (DiffResult.mk (Table.mk ["k"] [["1"]]) emptyTable emptyTable) "p"
          → content = csvRender (Table.mk ["k"] [["1"]]))
      ∧ (∀ content, ("p__removed.csv", content)
          ∈ write_diff_csvs (DiffResult.mk (Table.mk ["k"] [["1"]]) emptyTable emptyTable) "p"
          → content = csvRender emptyTable)
      ∧ (∀ content, ("p__modified.csv", content)
          ∈ write_diff_csvs (DiffResult.mk (Table.mk ["k"] [["1"]]) emptyTable emptyTable) "p"
          → content = csvRender emptyTable) :=
  write_diff_csvs_files_iff (DiffResult.mk (Table.mk ["k"] [["1"]]) emptyTable emptyTable) "p"

/-! ### Helper lemmas for the removal verifier -/

theorem getField_cons (a : String × String) (t : Rec) (k : String) :
    getField (a :: t) k = if a.1 == k then a.2 else getField t k := by
  by_cases h : (a.1 == k) = true
  · unfold getField
    rw [@List.find?_cons_of_pos _ (fun p => p.1 == k) a t h, if_pos h]
  · unfold getField
    rw [@List.find?_cons_of_neg _ (fun p => p.1 == k) a t h, if_neg h]

theorem find?_eq_none_of_any_false (r : Rec) (k : String)
    (h : ¬ r.any (fun p => p.1 == k) = true) :
    r.find? (fun p => p.1 == k) = none := by
  rcases hfind : r.find? (fun p => p.1 == k) with _ | p
  · exact hfind
  · exact absurd (List.any_eq_true.mpr
      ⟨p, List.mem_of_find?_eq_some hfind, List.find?_some hfind⟩) h

theorem find?_cons_pos {p : String × String → Bool} (a : String × String) (t : Rec)
    (h : p a = true) : List.find? p (a :: t) = some a :=
  List.find?_cons_of_pos t h

theorem find?_cons_neg {p : String × String → Bool} (a : String × String) (t : Rec)
    (h : ¬ p a = true) : List.find? p (a :: t) = List.find? p t :=
  List.find?_cons_of_neg t h

theorem getField_of_find?_some (r : Rec) (k : String) (p : String × String)
    (h : r.find? (fun q => q.1 == k) = some p) : getField r k = p.2 := by
  unfold getField
  rw [h]

theorem getField_of_find?_none (r : Rec) (k : String)
    (h : r.find? (fun q => q.1 == k) = none) : getField r k = "" := by
  unfold getField
  rw [h]

theorem getField_append_of_none (r s : Rec) (k : String)
    (h : r.find? (fun p => p.1 == k) = none) :
    getField (r ++ s) k = getField s k := by
  induction r with
  | nil => rfl
  | cons a t ih =>
    by_cases hak : (a.1 == k) = true
    · rw [find?_cons_pos a t hak] at h
      cases h
    · rw [find?_cons_neg a t hak] at h
      rw [List.cons_append, getField_cons, if_neg hak]
      exact ih h

theorem getField_append_of_some (r s : Rec) (k : String) (p : String × String)
    (h : r.find? (fun q => q.1 == k) = some p) :
    getField (r ++ s) k = p.2 := by
  induction r with
  | nil => cases h
  | cons a t ih =>
    by_cases hak : (a.1 == k) = true
    · rw [find?_cons_pos a t hak] at h
      have := Option.some.inj h
      rw [List.cons_append, getField_cons, if_pos hak, this]
    · rw [find?_cons_neg a t hak] at h
      rw [List.cons_append, getField_cons, if_neg hak]
      exact ih h

theorem getField_setField_same (r : Rec) (k v : String) :
    getField (setField r k v) k = v := by
  unfold setField
  by_cases h : r.any (fun p => p.1 == k) = true
  · rw [if_pos h]
    induction r with
    | nil => simp at h
    | cons a t ih =>
      rw [List.map_cons]
      by_cases hak : (a.1 == k) = true
      · rw [if_pos hak, getField_cons]
        simp
      · rw [if_neg hak, getField_cons, if_neg hak]
        apply ih
        rcases List.any_eq_true.mp h with ⟨x, hx, hpx⟩
        rcases List.mem_cons.mp hx with hx | hx
        · exact absurd (hx ▸ hpx) hak
        · exact List.any_eq_true.mpr ⟨x, hx, hpx⟩
  · rw [if_neg h,
      getField_append_of_none r [(k, v)] k (find?_eq_none_of_any_false r k h),
      getField_cons]
    simp

theorem getField_setField_ne (r : Rec) (k k' v : String) (hne : k' ≠ k) :
    getField (setField r k v) k' = getField r k' := by
  have hkk' : ¬ (k == k') = true := by simpa using Ne.symm hne
  unfold setField
  by_cases h : r.any (fun p => p.1 == k) = true
  · rw [if_pos h]
    clear h
    induction r with
    | nil => rfl
    | cons a t ih =>
      rw [List.map_cons]
      by_cases hak : (a.1 == k) = true
      · have ha : a.1 = k := by simpa using hak
        rw [if_pos hak, getField_cons, getField_cons, if_neg hkk',
          if_neg (by rw [ha]; exact hkk')]
        exact ih
      · rw [if_neg hak, getField_cons, getField_cons]
        by_cases hak' : (a.1 == k') = true
        · rw [if_pos hak', if_pos hak']
        · rw [if_neg hak', if_neg hak']
          exact ih
  · rw [if_neg h]
    rcases hfind : r.find? (fun q => q.1 == k') with _ | p
    · rw [getField_append_of_none r [(k, v)] k' hfind, getField_cons, if_neg hkk',
        getField_of_find?_none r k' hfind]
      rfl
    · rw [getField_append_of_some r [(k, v)] k' p hfind,
        getField_of_find?_some r k' p hfind]

theorem verifyRows_cons (v : Option (String → Option Bool × String)) (r : Rec)
    (rs : List Rec) :
    verifyRows v (r :: rs) = (rowOut v r).app (verifyRows v rs) := rfl

theorem verifyRows_append (v : Option (String → Option Bool × String)) (xs ys : List Rec) :
    verifyRows v (xs ++ ys) = (verifyRows v xs).app (verifyRows v ys) := by
  induction xs with
  | nil =>
    show verifyRows v ys = VerifyOut.app ⟨[], [], []⟩ (verifyRows v ys)
    unfold VerifyOut.app
    simp
  | cons r rs ih =>
    rw [List.cons_append, verifyRows_cons, verifyRows_cons, ih]
    unfold VerifyOut.app
    simp [List.append_assoc]

theorem mem_confirmed_of_mem (v : Option (String → Option Bool × String))
    (rows : List Rec) (r : Rec) (h : r ∈ rows) (x : Rec)
    (hx : x ∈ (rowOut v r).confirmed) : x ∈ (verifyRows v rows).confirmed := by
  induction rows with
  | nil => cases h
  | cons a t ih =>
    show x ∈ (rowOut v a).confirmed ++ (verifyRows v t).confirmed
    rcases List.mem_cons.mp h with h | h
    · exact List.mem_append_left _ (h ▸ hx)
    · exact List.mem_append_right _ (ih h)

theorem mem_still_of_mem (v : Option (String → Option Bool × String))
    (rows : List Rec) (r : Rec) (h : r ∈ rows) (x : Rec)
    (hx : x ∈ (rowOut v r).stillPresent) : x ∈ (verifyRows v rows).stillPresent := by
  induction rows with
  | nil => cases h
  | cons a t ih =>
    show x ∈ (rowOut v a).stillPresent ++ (verifyRows v t).stillPresent
    rcases List.mem_cons.mp h with h | h
    · exact List.mem_append_left _ (h ▸ hx)
    · exact List.mem_append_right _ (ih h)

theorem mem_errors_of_mem (v : Option (String → Option Bool × String))
    (rows : List Rec) (r : Rec) (h : r ∈ rows) (x : Rec)
    (hx : x ∈ (rowOut v r).errors) : x ∈ (verifyRows v rows).errors := by
  induction rows with
  | nil => cases h
  | cons a t ih =>
    show x ∈ (rowOut v a).errors ++ (verifyRows v t).errors
    rcases List.mem_cons.mp h with h | h
    · exact List.mem_append_left _ (h ▸ hx)
    · exact List.mem_append_right _ (ih h)

theorem rowOut_nourl (v : Option (String → Option Bool × String)) (r : Rec)
    (h : getField r "profile_url" = "") :
    rowOut v r = ⟨[setField r "double_check_status" "no_url"], [], []⟩ := by
  unfold rowOut
  rw [if_pos h]

theorem rowOut_none_verifier (r : Rec) (h : ¬ getField r "profile_url" = "") :
    rowOut none r = ⟨[setField r "double_check_status" "not_supported"], [], []⟩ := by
  unfold rowOut
  rw [if_neg h]

theorem rowOut_some_verifier (f : String → Option Bool × String) (r : Rec)
    (h : ¬ getField r "profile_url" = "") :
    rowOut (some f) r = verdictOut r (f (getField r "profile_url")) := by
  unfold rowOut
  rw [if_neg h]

theorem verdictOut_true (r : Rec) (d : String) :
    verdictOut r (some true, d)
      = ⟨[setField (setField r "double_check_detail" d) "double_check_status"
          "confirmed_missing"], [], []⟩ := rfl

theorem verdictOut_false (r : Rec) (d : String) :
    verdictOut r (some false, d)
      = ⟨[], [setField (setField r "double_check_detail" d) "double_check_status"
          "still_present"], []⟩ := rfl

theorem verdictOut_none (r : Rec) (d : String) :
    verdictOut r (none, d)
      = ⟨[setField (setField r "double_check_detail" d) "double_check_status" "check_error"],
          [],
          [setField (setField r "double_check_detail" d) "double_check_status"
            "check_error"]⟩ := rfl

theorem rowOut_confirmed_status (v : Option (String → Option Bool × String))
    (r : Rec) (x : Rec) (hx : x ∈ (rowOut v r).confirmed) :
    getField x "double_check_status" = "no_url"
      ∨ getField x "double_check_status" = "not_supported"
      ∨ getField x "double_check_status" = "confirmed_missing"
      ∨ getField x "double_check_status" = "check_error" := by
  by_cases hurl : getField r "profile_url" = ""
  · rw [rowOut_nourl v r hurl] at hx
    obtain rfl := List.mem_singleton.mp hx
    exact Or.inl (getField_setField_same _ _ _)
  · cases v with
    | none =>
      rw [rowOut_none_verifier r hurl] at hx
      obtain rfl := List.mem_singleton.mp hx
      exact Or.inr (Or.inl (getField_setField_same _ _ _))
    | some f =>
      rw [rowOut_some_verifier f r hurl] at hx
      rcases hv : f (getField r "profile_url") with ⟨verdict, d⟩
      rw [hv] at hx
      rcases verdict with _ | b
      · rw [verdictOut_none] at hx
        obtain rfl := List.mem_singleton.mp hx
        exact Or.inr (Or.inr (Or.inr (getField_setField_same _ _ _)))
      · cases b
        · rw [verdictOut_false] at hx
          cases hx
        · rw [verdictOut_true] at hx
          obtain rfl := List.mem_singleton.mp hx
          exact Or.inr (Or.inr (Or.inl (getField_setField_same _ _ _)))

theorem verifyRows_confirmed_status (v : Option (String → Option Bool × String))
    (rows : List Rec) (x : Rec) (hx : x ∈ (verifyRows v rows).confirmed) :
    getField x "double_check_status" = "no_url"
      ∨ getField x "double_check_status" = "not_supported"
      ∨ getField x "double_check_status" = "confirmed_missing"
      ∨ getField x "double_check_status" = "check_error" := by
  induction rows with
  | nil => cases hx
  | cons a t ih =>
    rcases List.mem_append.mp hx with h | h
    · exact rowOut_confirmed_status v a x h
    · exact ih h

theorem rowOut_routed (v : Option (String → Option Bool × String)) (r : Rec) :
    (rowOut v r).confirmed ++ (rowOut v r).stillPresent = [routedRow v r] := by
  unfold routedRow
  by_cases hurl : getField r "profile_url" = ""
  · rw [rowOut_nourl v r hurl]
    rfl
  · cases v with
    | none =>
      rw [rowOut_none_verifier r hurl]
      rfl
    | some f =>
      rw [rowOut_some_verifier f r hurl]
      rcases hv : f (getField r "profile_url") with ⟨verdict, d⟩
      rcases verdict with _ | b
      · rw [verdictOut_none]
        rfl
      · cases b
        · rw [verdictOut_false]
          rfl
        · rw [verdictOut_true]
          rfl

theorem rowOut_errors_sub (v : Option (String → Option Bool × String)) (r : Rec)
    (e : Rec) (he : e ∈ (rowOut v r).errors) : e ∈ (rowOut v r).confirmed := by
  by_cases hurl : getField r "profile_url" = ""
  · rw [rowOut_nourl v r hurl] at he
    cases he
  · cases v with
    | none =>
      rw [rowOut_none_verifier r hurl] at he
      cases he
    | some f =>
      rw [rowOut_some_verifier f r hurl] at he ⊢
      rcases hv : f (getField r "profile_url") with ⟨verdict, d⟩
      rw [hv] at he
      rcases verdict with _ | b
      · rw [verdictOut_none] at he ⊢
        exact he
      · cases b
        · rw [verdictOut_false] at he
          cases he
        · rw [verdictOut_true] at he
          cases he

theorem perm_append_swap {α : Type} (a b c d : List α) :
    ((a ++ b) ++ (c ++ d)).Perm ((a ++ c) ++ (b ++ d)) := by
  have h1 : ((b ++ c) ++ d).Perm ((c ++ b) ++ d) :=
    (@List.perm_append_comm α b c).append_right d
  rw [List.append_assoc b c d, List.append_assoc c b d] at h1
  have h2 := h1.append_left a
  rw [← List.append_assoc a b (c ++ d), ← List.append_assoc a c (b ++ d)] at h2
  exact h2

theorem verifyRows_perm (v : Option (String → Option Bool × String)) (rows : List Rec) :
    ((verifyRows v rows).confirmed ++ (verifyRows v rows).stillPresent).Perm
      (rows.map (routedRow v)) := by
  induction rows with
  | nil => simp [verifyRows]
  | cons r rs ih =>
    show (((rowOut v r).confirmed ++ (verifyRows v rs).confirmed)
        ++ ((rowOut v r).stillPresent ++ (verifyRows v rs).stillPresent)).Perm _
    have hsw := perm_append_swap (rowOut v r).confirmed (verifyRows v rs).confirmed
      (rowOut v r).stillPresent (verifyRows v rs).stillPresent
    rw [rowOut_routed v r] at hsw
    refine hsw.trans ?_
    rw [List.singleton_append, List.map_cons]
    exact ih.cons _

theorem verifyRows_errors_sub (v : Option (String → Option Bool × String))
    (rows : List Rec) (e : Rec) (he : e ∈ (verifyRows v rows).errors) :
    e ∈ (verifyRows v rows).confirmed := by
  induction rows with
  | nil => cases he
  | cons a t ih =>
    rcases List.mem_append.mp he with h | h
    · exact List.mem_append_left _ (rowOut_errors_sub v a e h)
    · exact List.mem_append_right _ (ih h)

theorem isPrefixL_self_append (l l' : List Char) : isPrefixL l (l ++ l') = true := by
  induction l with
  | nil => rfl
  | cons a t ih => simp [isPrefixL, ih]

/-! ### Claim C3 — markerless HTTP 200 demotes to `still_present` -/

/-- C3: a removed record with an identifier, whose source has a registered
verifier, whose probe returns HTTP 200 with none of the source's missing
markers in the body, is classified `still_present`: it lands in the
still-present output and never in the confirmed output. -/
theorem verify_markerless_200_still_present (award_id : String) (probe : Probe)
    (rows : List Rec) (r : Rec) (ms : List String) (resp : Resp)
    (hm : awardMarkers award_id = some ms)
    (hr : r ∈ rows)
    (hurl : getField r "profile_url" ≠ "")
    (hp : probe (getField r "profile_url") = Except.ok resp)
    (h200 : resp.status = 200)
    (hnomark : ∀ m ∈ ms, isInfixL m.toList (lowerList resp.text.toList) = false) :
    setField (setField r "double_check_detail" "status=200") "double_check_status"
        "still_present" ∈ (verify_removed_rows award_id probe rows).stillPresent
      ∧ setField (setField r "double_check_detail" "status=200") "double_check_status"
        "still_present" ∉ (verify_removed_rows award_id probe rows).confirmed := by
  have hmiss : responseIndicatesMissing resp ms = false := by
    unfold responseIndicatesMissing
    rw [h200]
    have h1 : ((200 : Nat) == 404) = false := by decide
    rw [h1, Bool.false_or]
    rcases hany : ms.any (fun m => isInfixL m.toList (lowerList resp.text.toList)) with _ | _
    · rfl
    · rcases List.any_eq_true.mp hany with ⟨m, hmm, hmx⟩
      rw [hnomark m hmm] at hmx
      cases hmx
  have hv : genericVerifier probe (getField r "profile_url") ms
      = (some false, "status=200") := by
    unfold genericVerifier
    rw [hp]
    show (if responseIndicatesMissing resp ms then
          ((some true : Option Bool), "status=" ++ toString resp.status)
        else if resp.status == 200 then (some false, "status=200")
        else (none, "status=" ++ toString resp.status))
      = ((some false : Option Bool), "status=200")
    rw [hmiss, h200]
    simp
  have hvr : verify_removed_rows award_id probe rows
      = verifyRows (some (fun url => genericVerifier probe url ms)) rows := by
    unfold verify_removed_rows
    rw [hm]
    rfl
  have hrow : rowOut (some (fun url => genericVerifier probe url ms)) r
      = ⟨[], [setField (setField r "double_check_detail" "status=200")
          "double_check_status" "still_present"], []⟩ := by
    rw [rowOut_some_verifier _ r hurl]
    show verdictOut r (genericVerifier probe (getField r "profile_url") ms) = _
    rw [hv, verdictOut_false]
  constructor
  · rw [hvr]
    apply mem_still_of_mem _ rows r hr
    rw [hrow]
    exact List.mem_cons_self _ _
  · rw [hvr]
    intro hmem
    have hst := verifyRows_confirmed_status _ rows _ hmem
    rw [getField_setField_same] at hst
    rcases hst with h | h | h | h <;> exact absurd h (by decide)

/-- C3 (witness): the theorem applied at a concrete live profile probe. -/
theorem verify_markerless_200_still_present_witness :
    setField (setField [("profile_url", "u")] "double_check_detail" "status=200")
        "double_check_status" "still_present"
      ∈ (verify_removed_rows "1909" (fun _ => Except.ok ⟨200, "all good"⟩)
          [[("profile_url", "u")]]).stillPresent
    ∧ setField (setField [("profile_url", "u")] "double_check_detail" "status=200")
        "double_check_status" "still_present"
      ∉ (verify_removed_rows "1909" (fun _ => Except.ok ⟨200, "all good"⟩)
          [[("profile_url", "u")]]).confirmed :=
  verify_markerless_200_still_present "1909" (fun _ => Except.ok ⟨200, "all good"⟩)
    [[("profile_url", "u")]] [("profile_url", "u")] ["page not found"] ⟨200, "all good"⟩
    (by decide) (List.mem_cons_self _ _) (by decide) rfl rfl (by decide)

/-! ### Claim C7 — probe failures become `check_error`, kept in `confirmed` -/

/-- C7: a removed record whose probe raises, or answers with a status that is
neither a 404/marker match nor a markerless 200, is classified `check_error`:
the record stays in the confirmed output, also appears in the errors output,
carries a diagnostic detail string, and the per-record processing is a
homomorphism over batches, so no record's failure affects any other record or
aborts the batch. -/
theorem verify_check_error_retained (award_id : String) (probe : Probe)
    (rows : List Rec) (r : Rec) (ms : List String)
    (hm : awardMarkers award_id = some ms)
    (hr : r ∈ rows)
    (hurl : getField r "profile_url" ≠ "")
    (hfail : (∃ e, probe (getField r "profile_url") = Except.error e)
      ∨ (∃ resp, probe (getField r "profile_url") = Except.ok resp
          ∧ responseIndicatesMissing resp ms = false ∧ resp.status ≠ 200)) :
    (∃ d, (isPrefixL "request_error=".toList d.toList = true
          ∨ isPrefixL "status=".toList d.toList = true)
        ∧ setField (setField r "double_check_detail" d) "double_check_status" "check_error"
            ∈ (verify_removed_rows award_id probe rows).errors
        ∧ setField (setField r "double_check_detail" d) "double_check_status" "check_error"
            ∈ (verify_removed_rows award_id probe rows).confirmed
        ∧ getField (setField (setField r "double_check_detail" d) "double_check_status"
            "check_error") "double_check_detail" = d)
      ∧ ∀ xs ys, verify_removed_rows award_id probe (xs ++ ys)
          = (verify_removed_rows award_id probe xs).app
            (verify_removed_rows award_id probe ys) := by
  have hvr : ∀ rs, verify_removed_rows award_id probe rs
      = verifyRows (some (fun url => genericVerifier probe url ms)) rs := by
    intro rs
    unfold verify_removed_rows
    rw [hm]
    rfl
  have hv : ∃ d, genericVerifier probe (getField r "profile_url") ms = (none, d)
      ∧ (isPrefixL "request_error=".toList d.toList = true
        ∨ isPrefixL "status=".toList d.toList = true) := by
    rcases hfail with ⟨e, he⟩ | ⟨resp, hok, hmiss, hst⟩
    · refine ⟨"request_error=" ++ e, ?_, Or.inl ?_⟩
      · unfold genericVerifier
        rw [he]
      · show isPrefixL "request_error=".toList ("request_error=" ++ e).data = true
        rw [String.data_append]
        exact isPrefixL_self_append _ _
    · refine ⟨"status=" ++ toString resp.status, ?_, Or.inr ?_⟩
      · unfold genericVerifier
        rw [hok]
        show (if responseIndicatesMissing resp ms then
              ((some true : Option Bool), "status=" ++ toString resp.status)
            else if resp.status == 200 then (some false, "status=200")
            else (none, "status=" ++ toString resp.status))
          = ((none : Option Bool), "status=" ++ toString resp.status)
        have h200 : (resp.status == 200) = false := by simpa using hst
        rw [hmiss, h200]
        simp
      · show isPrefixL "status=".toList ("status=" ++ toString resp.status).data = true
        rw [String.data_append]
        exact isPrefixL_self_append _ _
  rcases hv with ⟨d, hvd, hpfx⟩
  refine ⟨⟨d, hpfx, ?_, ?_, ?_⟩, ?_⟩
  · rw [hvr rows]
    apply mem_errors_of_mem _ rows r hr
    rw [rowOut_some_verifier _ r hurl]
    show _ ∈ (verdictOut r (genericVerifier probe (getField r "profile_url") ms)).errors
    rw [hvd, verdictOut_none]
    exact List.mem_cons_self _ _
  · rw [hvr rows]
    apply mem_confirmed_of_mem _ rows r hr
    rw [rowOut_some_verifier _ r hurl]
    show _ ∈ (verdictOut r (genericVerifier probe (getField r "profile_url") ms)).confirmed
    rw [hvd, verdictOut_none]
    exact List.mem_cons_self _ _
  · exact (getField_setField_ne _ "double_check_status" "double_check_detail" "check_error"
      (by decide)).trans (getField_setField_same _ _ _)
  · intro xs ys
    rw [hvr (xs ++ ys), hvr xs, hvr ys]
    exact verifyRows_append _ xs ys

/-- C7 (witness): the theorem applied at a concrete transport failure. -/
theorem verify_check_error_retained_witness :
    (∃ d, (isPrefixL "request_error=".toList d.toList = true
          ∨ isPrefixL "status=".toList d.toList = true)
        ∧ setField (setField [("profile_url", "u")] "double_check_detail" d)
            "double_check_status" "check_error"
            ∈ (verify_removed_rows "3008" (fun _ => Except.error "boom")
                [[("profile_url", "u")]]).errors
        ∧ setField (setField [("profile_url", "u")] "double_check_detail" d)
            "double_check_status" "check_error"
            ∈ (verify_removed_rows "3008" (fun _ => Except.error "boom")
                [[("profile_url", "u")]]).confirmed
        ∧ getField (setField (setField [("profile_url", "u")] "double_check_detail" d)
            "double_check_status" "check_error") "double_check_detail" = d)
      ∧ ∀ xs ys, verify_removed_rows "3008" (fun _ => Except.error "boom") (xs ++ ys)
          = (verify_removed_rows "3008" (fun _ => Except.error "boom") xs).app
            (verify_removed_rows "3008" (fun _ => Except.error "boom") ys) :=
  verify_check_error_retained "3008" (fun _ => Except.error "boom")
    [[("profile_url", "u")]] [("profile_url", "u")] naeMissingMarkers
    (by decide) (List.mem_cons_self _ _) (by decide) (Or.inl ⟨"boom", rfl⟩)

/-! ### Claim C8 — records without an identifier -/

/-- C8 (counterexample): the status string the code attaches to a removed
record without a dereferenceable identifier is `"no_url"`, not
`"no_identifier"` as the claim states — no record in the confirmed output ever
carries the status `"no_identifier"`. -/
theorem verify_no_identifier_status_cex :
    (verify_removed_rows "3008" (fun _ => Except.error "x")
        [[("profile_url", "")]]).confirmed
      = [[("profile_url", ""), ("double_check_status", "no_url")]]
    ∧ ∀ x ∈ (verify_removed_rows "3008" (fun _ => Except.error "x")
        [[("profile_url", "")]]).confirmed,
        getField x "double_check_status" ≠ "no_identifier" := by
  decide

/-- C8 (amended): a removed record with a missing or empty `profile_url` is
classified with status `"no_url"` (the spec's `no_identifier` outcome), kept in
the confirmed output rather than dropped, and its per-record outcome is the
same for every verifier — in particular no probe is consulted for it. -/
theorem verify_no_url_kept_confirmed (award_id : String) (probe : Probe)
    (rows : List Rec) (r : Rec)
    (hr : r ∈ rows) (hurl : getField r "profile_url" = "") :
    setField r "double_check_status" "no_url"
        ∈ (verify_removed_rows award_id probe rows).confirmed
      ∧ getField (setField r "double_check_status" "no_url") "double_check_status" = "no_url"
      ∧ ∀ v, rowOut v r = ⟨[setField r "double_check_status" "no_url"], [], []⟩ := by
  refine ⟨?_, getField_setField_same r _ _, fun v => rowOut_nourl v r hurl⟩
  unfold verify_removed_rows
  apply mem_confirmed_of_mem _ rows r hr
  rw [rowOut_nourl _ r hurl]
  exact List.mem_cons_self _ _

/-- C8 (witness): the amended theorem applied at a record lacking the
`profile_url` field entirely. -/
theorem verify_no_url_kept_confirmed_witness :
    setField [("name", "x")] "double_check_status" "no_url"
        ∈ (verify_removed_rows "1909" (fun _ => Except.ok ⟨200, "t"⟩)
            [[("name", "x")]]).confirmed
      ∧ getField (setField [("name", "x")] "double_check_status" "no_url")
          "double_check_status" = "no_url"
      ∧ ∀ v, rowOut v [("name", "x")]
          = ⟨[setField [("name", "x")] "double_check_status" "no_url"], [], []⟩ :=
  verify_no_url_kept_confirmed "1909" (fun _ => Except.ok ⟨200, "t"⟩)
    [[("name", "x")]] [("name", "x")] (List.mem_cons_self _ _) (by decide)

/-! ### Claim C10 — row conservation in `verify_removed_rows` -/

/-- C10: `verify_removed_rows` conserves rows — the confirmed and
still-present outputs together are a permutation of the per-record routed
rows (one output row per input row), their lengths sum to the input length,
and every errors row also appears in confirmed; no input row is dropped. -/
theorem verify_conservation (award_id : String) (probe : Probe) (rows : List Rec) :
    ((verify_removed_rows award_id probe rows).confirmed
        ++ (verify_removed_rows award_id probe rows).stillPresent).Perm
      (rows.map (routedRow ((awardMarkers award_id).map
        (fun ms url => genericVerifier probe url ms))))
      ∧ (verify_removed_rows award_id probe rows).confirmed.length
          + (verify_removed_rows award_id probe rows).stillPresent.length = rows.length
      ∧ ∀ e ∈ (verify_removed_rows award_id probe rows).errors,
          e ∈ (verify_removed_rows award_id probe rows).confirmed := by
  have hperm := verifyRows_perm ((awardMarkers award_id).map
    (fun ms url => genericVerifier probe url ms)) rows
  refine ⟨hperm, ?_, fun e he => verifyRows_errors_sub _ rows e he⟩
  have hl := hperm.length_eq
  rw [List.length_append, List.length_map] at hl
  exact hl

/-! ### Claim C2 — failure isolation in the Run Coordinator loop -/

/-- C2 (counterexample): an unexpected exception during diffing is not caught
at the source boundary — the whole loop aborts, and a later healthy source's
artifact is never produced, contradicting the claim that a crash at any stage
is isolated. -/
theorem run_all_crash_not_isolated_cex :
    runAllMain [⟨true, true, false, true, true, "A1"⟩,
        ⟨true, true, true, true, true, "A2"⟩]
      = Except.error "unhandled exception in compute_diff"
    ∧ ¬ ∃ st, runAllMain [⟨true, true, false, true, true, "A1"⟩,
          ⟨true, true, true, true, true, "A2"⟩] = Except.ok st
        ∧ "A2" ∈ st.files := by
  constructor
  · rfl
  · rintro ⟨st, hst, _⟩
    rw [show runAllMain [⟨true, true, false, true, true, "A1"⟩,
        ⟨true, true, true, true, true, "A2"⟩]
      = Except.error "unhandled exception in compute_diff" from rfl] at hst
    cases hst

theorem foldl_processSource_ok (srcs : List SourceSpec) (st : RunState)
    (h : ∀ s ∈ srcs, s.diffOk = true ∧ s.verifyOk = true ∧ s.writeOk = true) :
    ∃ st', List.foldlM processSource st srcs = Except.ok st'
      ∧ st'.files = st.files
        ++ (srcs.filter (fun s => s.scrapeOk && s.loadOk)).map (fun s => s.artifact) := by
  induction srcs generalizing st with
  | nil => exact ⟨st, rfl, by simp⟩
  | cons s ss ih =>
    obtain ⟨hd, hv, hw⟩ := h s (List.mem_cons_self _ _)
    have hss : ∀ x ∈ ss, x.diffOk = true ∧ x.verifyOk = true ∧ x.writeOk = true :=
      fun x hx => h x (List.mem_cons_of_mem _ hx)
    by_cases hsc : s.scrapeOk = true
    · by_cases hld : s.loadOk = true
      · have hstep : processSource st s
            = Except.ok ⟨st.lines ++ [s.artifact ++ " diffed"],
              st.files ++ [s.artifact], st.anyFailures⟩ := by
          simp [processSource, hsc, hld, hd, hv, hw]
        rcases ih ⟨st.lines ++ [s.artifact ++ " diffed"],
            st.files ++ [s.artifact], st.anyFailures⟩ hss with ⟨st', h1, h2⟩
        refine ⟨st', ?_, ?_⟩
        · rw [List.foldlM_cons, hstep]
          exact h1
        · rw [h2]
          simp [List.filter_cons, hsc, hld, List.append_assoc]
      · have hld0 : s.loadOk = false := by simpa using hld
        have hstep : processSource st s
            = Except.ok ⟨st.lines ++ ["failed to load snapshots"], st.files, true⟩ := by
          simp [processSource, hsc, hld0]
        rcases ih ⟨st.lines ++ ["failed to load snapshots"], st.files, true⟩ hss
          with ⟨st', h1, h2⟩
        refine ⟨st', ?_, ?_⟩
        · rw [List.foldlM_cons, hstep]
          exact h1
        · rw [h2]
          simp [List.filter_cons, hld0]
    · have hsc0 : s.scrapeOk = false := by simpa using hsc
      have hstep : processSource st s
          = Except.ok ⟨st.lines ++ ["scraper FAILED"], st.files, true⟩ := by
        simp [processSource, hsc0]
      rcases ih ⟨st.lines ++ ["scraper FAILED"], st.files, true⟩ hss with ⟨st', h1, h2⟩
      refine ⟨st', ?_, ?_⟩
      · rw [List.foldlM_cons, hstep]
        exact h1
      · rw [h2]
        simp [List.filter_cons, hsc0]

/-- C2 (amended): only the snapshot-loading stage (and the scraper stage before
it) is guarded inside the loop of `run_all.main`: when no source raises during
diffing, verification or writing, every scrape/load failure is recorded and the
loop continues, and the artifacts of all surviving sources are still produced;
an exception in `compute_diff`, `verify_removed_rows` or `write_diff_csvs`
escapes the loop and aborts the run (see the counterexample). -/
theorem run_all_load_failures_isolated (srcs : List SourceSpec)
    (h : ∀ s ∈ srcs, s.diffOk = true ∧ s.verifyOk = true ∧ s.writeOk = true) :
    ∃ st, runAllMain srcs = Except.ok st
      ∧ st.files = (srcs.filter (fun s => s.scrapeOk && s.loadOk)).map
          (fun s => s.artifact) := by
  rcases foldl_processSource_ok srcs ⟨[], [], false⟩ h with ⟨st, h1, h2⟩
  exact ⟨st, h1, by simpa using h2⟩

/-- C2 (witness): a load failure in the first source does not prevent the
second source's artifact from being produced. -/
theorem run_all_load_failures_isolated_witness :
    ∃ st, runAllMain [⟨true, false, true, true, true, "A1"⟩,
        ⟨true, true, true, true, true, "A2"⟩] = Except.ok st
      ∧ st.files = ([⟨true, false, true, true, true, "A1"⟩,
          (⟨true, true, true, true, true, "A2"⟩ : SourceSpec)].filter
            (fun s => s.scrapeOk && s.loadOk)).map (fun s => s.artifact) :=
  run_all_load_failures_isolated
    [⟨true, false, true, true, true, "A1"⟩, ⟨true, true, true, true, true, "A2"⟩]
    (by decide)

/-! ### Helper lemmas for the diff engine -/

theorem any_map_general {α β : Type} (f : α → β) (p : β → Bool) (l : List α) :
    (l.map f).any p = l.any (fun x => p (f x)) := by
  induction l with
  | nil => rfl
  | cons a t ih => simp [List.map_cons, List.any_cons, ih]

theorem bool_eq_of_iff {a b : Bool} (h : a = true ↔ b = true) : a = b := by
  cases a <;> cases b <;> simp_all

theorem isEmptyB_of_normalized (pk : List String) (t : Table) (h : Normalized pk t) :
    t.isEmptyB = t.rows.isEmpty := by
  obtain ⟨hpk, hsub, -, -, -⟩ := h
  have hcols : t.cols.isEmpty = false := by
    rcases pk with _ | ⟨k, ks⟩
    · exact absurd rfl hpk
    · have hk := hsub k (List.mem_cons_self _ _)
      rcases hcl : t.cols with _ | ⟨c, cs⟩
      · rw [hcl] at hk
        cases hk
      · rfl
  unfold Table.isEmptyB
  rw [hcols, Bool.or_false]

theorem compute_diff_both_empty (prev curr : Table) (pk ig : List String)
    (hp : prev.isEmptyB = true) (hc : curr.isEmptyB = true) :
    compute_diff prev curr pk ig = ⟨emptyTable, emptyTable, emptyTable⟩ := by
  simp [compute_diff, compute_diff_full, hp, hc]

theorem compute_diff_prev_empty (prev curr : Table) (pk ig : List String)
    (hp : prev.isEmptyB = true) (hc : curr.isEmptyB = false) :
    compute_diff prev curr pk ig = ⟨curr, emptyTable, emptyTable⟩ := by
  simp [compute_diff, compute_diff_full, hp, hc]

theorem compute_diff_curr_empty (prev curr : Table) (pk ig : List String)
    (hp : prev.isEmptyB = false) (hc : curr.isEmptyB = true) :
    compute_diff prev curr pk ig = ⟨emptyTable, prev, emptyTable⟩ := by
  simp [compute_diff, compute_diff_full, hp, hc]

theorem compute_diff_main_eq (prev curr : Table) (pk ig : List String)
    (hp : prev.isEmptyB = false) (hc : curr.isEmptyB = false) :
    compute_diff prev curr pk ig
      = ⟨addedOf (addMissingCols prev pk) (addMissingCols curr pk) pk,
         removedOf (addMissingCols prev pk) (addMissingCols curr pk) pk,
         modifiedOf (addMissingCols prev pk) (addMissingCols curr pk) pk ig⟩ := by
  simp [compute_diff, compute_diff_full, hp, hc]

theorem tableKeys_addedOf (p c : Table) (pk : List String) :
    tableKeys (addedOf p c pk) pk = specAddedKeys p c pk := by
  show (List.filter (fun r => decide (keyAt c.cols r pk ∉ tableKeys p pk)) c.rows).map
      (fun r => keyAt c.cols r pk)
    = (List.map (fun r => keyAt c.cols r pk) c.rows).filter
      (fun kv => decide (kv ∉ tableKeys p pk))
  exact map_filter_comp (fun r => keyAt c.cols r pk)
    (fun kv => decide (kv ∉ tableKeys p pk)) c.rows

theorem tableKeys_removedOf (p c : Table) (pk : List String) :
    tableKeys (removedOf p c pk) pk = specRemovedKeys p c pk := by
  show (List.filter (fun r => decide (keyAt p.cols r pk ∉ tableKeys c pk)) p.rows).map
      (fun r => keyAt p.cols r pk)
    = (List.map (fun r => keyAt p.cols r pk) p.rows).filter
      (fun kv => decide (kv ∉ tableKeys c pk))
  exact map_filter_comp (fun r => keyAt p.cols r pk)
    (fun kv => decide (kv ∉ tableKeys c pk)) p.rows

theorem findRow_mem_of_key (t : Table) (pk k : List String)
    (hnd : (tableKeys t pk).Nodup) (hk : k ∈ tableKeys t pk) :
    findRow t pk k ∈ t.rows ∧ keyAt t.cols (findRow t pk k) pk = k := by
  rcases List.mem_map.mp hk with ⟨r0, hr0, hkr⟩
  subst hkr
  rw [findRow_key_self t pk r0 hnd hr0]
  exact ⟨hr0, rfl⟩

theorem filter_cons_pos' {β : Type} (p : β → Bool) (a : β) (t : List β) (h : p a = true) :
    List.filter p (a :: t) = a :: List.filter p t := List.filter_cons_of_pos h

theorem filter_cons_neg' {β : Type} (p : β → Bool) (a : β) (t : List β) (h : ¬ p a = true) :
    List.filter p (a :: t) = List.filter p t := List.filter_cons_of_neg h

theorem filter_beq_nil {β : Type} [BEq β] [LawfulBEq β] (l : List β) (k : β) (hk : k ∉ l) :
    l.filter (fun x => x == k) = [] := by
  induction l with
  | nil => rfl
  | cons a t ih =>
    have hak : ¬ (a == k) = true := by
      intro hh
      exact hk ((by simpa using hh : a = k) ▸ List.mem_cons_self _ _)
    rw [filter_cons_neg' (fun x => x == k) a t hak]
    exact ih fun h => hk (List.mem_cons_of_mem _ h)

theorem filter_beq_singleton {β : Type} [BEq β] [LawfulBEq β] (l : List β) (k : β)
    (hnd : l.Nodup) (hk : k ∈ l) : l.filter (fun x => x == k) = [k] := by
  induction l with
  | nil => cases hk
  | cons a t ih =>
    rw [List.nodup_cons] at hnd
    rcases List.mem_cons.mp hk with rfl | hkt
    · rw [filter_cons_pos' (fun x => x == k) k t (by simp)]
      rw [filter_beq_nil t k hnd.1]
    · have hak : ¬ (a == k) = true := by
        intro hh
        exact absurd ((by simpa using hh : a = k) ▸ hkt) hnd.1
      rw [filter_cons_neg' (fun x => x == k) a t hak]
      exact ih hnd.2 hkt

theorem rowChanged_eq_spec (prev curr : Table) (pk ig : List String) (k : List String)
    (hp : Normalized pk prev) (hc : Normalized pk curr)
    (hkp : k ∈ tableKeys prev pk) (hkc : k ∈ tableKeys curr pk) :
    rowChangedB prev curr (compareColsOf prev curr pk ig) pk k
      = specChangedB prev curr pk ig k := by
  obtain ⟨-, -, -, -, hpnd⟩ := hp
  obtain ⟨-, -, -, -, hcnd⟩ := hc
  obtain ⟨-, hprk⟩ := findRow_mem_of_key prev pk k hpnd hkp
  obtain ⟨-, hcrk⟩ := findRow_mem_of_key curr pk k hcnd hkc
  have hpk_eq : ∀ x ∈ pk, cellAt prev.cols (findRow prev pk k) x
      = cellAt curr.cols (findRow curr pk k) x :=
    List.map_eq_map_iff.mp (hprk.trans hcrk.symm)
  have hL : rowChangedB prev curr (compareColsOf prev curr pk ig) pk k
      = (compareColsOf prev curr pk ig).any (fun x =>
          cellAt prev.cols (findRow prev pk k) x != cellAt curr.cols (findRow curr pk k) x) := by
    unfold rowChangedB alignedRow
    rw [List.zip_map', any_map_general]
  rw [hL]
  unfold specChangedB
  apply bool_eq_of_iff
  constructor
  · intro h
    rcases List.any_eq_true.mp h with ⟨x, hx, hdx⟩
    have hxne : cellAt prev.cols (findRow prev pk k) x
        ≠ cellAt curr.cols (findRow curr pk k) x := bne_iff_ne.mp hdx
    have hxpk : x ∉ pk := fun hxpk => hxne (hpk_eq x hxpk)
    rcases (mem_compareColsOf prev curr pk ig x).mp hx with h1 | ⟨h2, h3⟩
    · exact absurd h1 hxpk
    · refine List.any_eq_true.mpr ⟨x, List.mem_dedup.mpr h2, ?_⟩
      rw [Bool.and_eq_true]
      exact ⟨decide_eq_true h3, hdx⟩
  · intro h
    rcases List.any_eq_true.mp h with ⟨x, hx, hdx⟩
    rw [Bool.and_eq_true] at hdx
    exact List.any_eq_true.mpr ⟨x, (mem_compareColsOf prev curr pk ig x).mpr
      (Or.inr ⟨List.mem_dedup.mp hx, of_decide_eq_true hdx.1⟩), hdx.2⟩

theorem changedKeys_eq_spec (prev curr : Table) (pk ig : List String)
    (hp : Normalized pk prev) (hc : Normalized pk curr) :
    changedKeysOf prev curr pk ig = specModifiedKeys prev curr pk ig := by
  unfold changedKeysOf specModifiedKeys
  rw [List.filter_filter]
  apply List.filter_congr
  intro k hk
  by_cases hkc : k ∈ tableKeys curr pk
  · have h1 : decide (k ∈ tableKeys curr pk) = true := decide_eq_true hkc
    rw [h1, Bool.and_true, Bool.true_and]
    exact rowChanged_eq_spec prev curr pk ig k hp hc hk hkc
  · have h1 : decide (k ∈ tableKeys curr pk) = false := by simpa using hkc
    rw [h1, Bool.and_false, Bool.false_and]

theorem mergeOn_rows_of_keys (p c : Table) (pk : List String) (ck : List (List String))
    (hnd : ck.Nodup)
    (hpkeys : ∀ k ∈ ck, keyAt p.cols (findRow p pk k) pk = k)
    (hckeys : ∀ k ∈ ck, keyAt c.cols (findRow c pk k) pk = k) :
    (mergeOn ⟨p.cols, ck.map (findRow p pk)⟩ ⟨c.cols, ck.map (findRow c pk)⟩ pk).rows
      = ck.map (fun k => findRow p pk k
          ++ (c.cols.filter (fun x => decide (x ∉ pk))).map (cellAt c.cols (findRow c pk k))) := by
  show (ck.map (findRow p pk)).flatMap (fun lr =>
      ((ck.map (findRow c pk)).filter (fun rr => keyAt c.cols rr pk == keyAt p.cols lr pk)).map
        (fun rr => lr ++ (c.cols.filter (fun x => decide (x ∉ pk))).map (cellAt c.cols rr)))
    = _
  suffices hgen : ∀ cl : List (List String), (∀ k ∈ cl, k ∈ ck) →
      (cl.map (findRow p pk)).flatMap (fun lr =>
        ((ck.map (findRow c pk)).filter (fun rr => keyAt c.cols rr pk == keyAt p.cols lr pk)).map
          (fun rr => lr ++ (c.cols.filter (fun x => decide (x ∉ pk))).map (cellAt c.cols rr)))
      = cl.map (fun k => findRow p pk k
          ++ (c.cols.filter (fun x => decide (x ∉ pk))).map (cellAt c.cols (findRow c pk k))) by
    exact hgen ck (fun k hk => hk)
  intro cl hcl
  induction cl with
  | nil => rfl
  | cons k0 ks ih =>
    rw [List.map_cons, List.flatMap_cons, List.map_cons]
    have hk0 : k0 ∈ ck := hcl k0 (List.mem_cons_self _ _)
    have hcong : ∀ k' ∈ ck, (keyAt c.cols (findRow c pk k') pk == k0) = (k' == k0) :=
      fun k' hk' => by rw [hckeys k' hk']
    have hfilter : (ck.map (findRow c pk)).filter
        (fun rr => keyAt c.cols rr pk == keyAt p.cols (findRow p pk k0) pk)
        = [findRow c pk k0] := by
      rw [hpkeys k0 hk0]
      rw [← map_filter_comp (findRow c pk) (fun rr => keyAt c.cols rr pk == k0) ck]
      rw [List.filter_congr hcong]
      rw [filter_beq_singleton ck k0 hnd hk0]
      rfl
    rw [hfilter]
    rw [ih (fun k hk => hcl k (List.mem_cons_of_mem _ hk))]
    rfl

theorem modifiedOf_eq (p c : Table) (pk ig : List String) :
    modifiedOf p c pk ig
      = if (changedKeysOf p c pk ig).isEmpty then emptyTable
        else mergeOn ⟨p.cols, (changedKeysOf p c pk ig).map (findRow p pk)⟩
          ⟨c.cols, (changedKeysOf p c pk ig).map (findRow c pk)⟩ pk := rfl

theorem modifiedOf_rows_eq (prev curr : Table) (pk ig : List String)
    (hp : Normalized pk prev) (hc : Normalized pk curr) :
    (modifiedOf prev curr pk ig).rows
      = (changedKeysOf prev curr pk ig).map (specModRow prev curr pk) := by
  have hpnd := hp.2.2.2.2
  have hcnd := hc.2.2.2.2
  have hsub : ∀ k ∈ changedKeysOf prev curr pk ig,
      k ∈ tableKeys prev pk ∧ k ∈ tableKeys curr pk := by
    intro k hk
    unfold changedKeysOf at hk
    rw [List.mem_filter] at hk
    have hk1 := hk.1
    rw [List.mem_filter] at hk1
    exact ⟨hk1.1, of_decide_eq_true hk1.2⟩
  have hnd : (changedKeysOf prev curr pk ig).Nodup := by
    unfold changedKeysOf
    exact (hpnd.filter _).filter _
  rw [modifiedOf_eq]
  by_cases hne : (changedKeysOf prev curr pk ig).isEmpty = true
  · rw [if_pos hne, List.isEmpty_iff.mp hne]
    rfl
  · rw [if_neg hne]
    exact mergeOn_rows_of_keys prev curr pk (changedKeysOf prev curr pk ig) hnd
      (fun k hk => (findRow_mem_of_key prev pk k hpnd (hsub k hk).1).2)
      (fun k hk => (findRow_mem_of_key curr pk k hcnd (hsub k hk).2).2)

theorem spec_keys_disjoint (prev curr : Table) (pk ig : List String) (k : List String) :
    ¬(k ∈ specAddedKeys prev curr pk ∧ k ∈ specRemovedKeys prev curr pk)
      ∧ ¬(k ∈ specAddedKeys prev curr pk ∧ k ∈ specModifiedKeys prev curr pk ig)
      ∧ ¬(k ∈ specRemovedKeys prev curr pk ∧ k ∈ specModifiedKeys prev curr pk ig) := by
  unfold specAddedKeys specRemovedKeys specModifiedKeys
  refine ⟨?_, ?_, ?_⟩
  · rintro ⟨h1, h2⟩
    rw [List.mem_filter] at h1 h2
    exact (of_decide_eq_true h1.2) h2.1
  · rintro ⟨h1, h2⟩
    rw [List.mem_filter] at h1 h2
    exact (of_decide_eq_true h1.2) h2.1
  · rintro ⟨h1, h2⟩
    rw [List.mem_filter] at h1 h2
    have h22 := h2.2
    rw [Bool.and_eq_true] at h22
    exact (of_decide_eq_true h1.2) (of_decide_eq_true h22.1)

theorem compute_diff_spec_all (prev curr : Table) (pk ig : List String)
    (hp : Normalized pk prev) (hc : Normalized pk curr) :
    (compute_diff prev curr pk ig).added.rows
        = curr.rows.filter (fun r => decide (keyAt curr.cols r pk ∉ tableKeys prev pk))
      ∧ (compute_diff prev curr pk ig).removed.rows
        = prev.rows.filter (fun r => decide (keyAt prev.cols r pk ∉ tableKeys curr pk))
      ∧ tableKeys (compute_diff prev curr pk ig).added pk = specAddedKeys prev curr pk
      ∧ tableKeys (compute_diff prev curr pk ig).removed pk = specRemovedKeys prev curr pk
      ∧ (compute_diff prev curr pk ig).modified.rows
        = (specModifiedKeys prev curr pk ig).map (specModRow prev curr pk) := by
  have hpe := isEmptyB_of_normalized pk prev hp
  have hce := isEmptyB_of_normalized pk curr hc
  by_cases hpr : prev.rows.isEmpty = true
  · have hprn : prev.rows = [] := List.isEmpty_iff.mp hpr
    have hpkeys : tableKeys prev pk = [] := by
      unfold tableKeys
      rw [hprn]
      rfl
    by_cases hcr : curr.rows.isEmpty = true
    · have hcrn : curr.rows = [] := List.isEmpty_iff.mp hcr
      have hckeys : tableKeys curr pk = [] := by
        unfold tableKeys
        rw [hcrn]
        rfl
      rw [compute_diff_both_empty prev curr pk ig (by rw [hpe]; exact hpr)
        (by rw [hce]; exact hcr)]
      refine ⟨?_, ?_, ?_, ?_, ?_⟩
      · rw [hcrn]
        rfl
      · rw [hprn]
        rfl
      · unfold specAddedKeys
        rw [hckeys]
        rfl
      · unfold specRemovedKeys
        rw [hpkeys]
        rfl
      · unfold specModifiedKeys
        rw [hpkeys]
        rfl
    · have hcf : curr.isEmptyB = false := by
        rw [hce]
        simpa using hcr
      rw [compute_diff_prev_empty prev curr pk ig (by rw [hpe]; exact hpr) hcf]
      refine ⟨?_, ?_, ?_, ?_, ?_⟩
      · symm
        apply List.filter_eq_self.mpr
        intro a ha
        rw [hpkeys]
        exact decide_eq_true (List.not_mem_nil _)
      · rw [hprn]
        rfl
      · unfold specAddedKeys
        rw [hpkeys]
        symm
        apply List.filter_eq_self.mpr
        intro a ha
        exact decide_eq_true (List.not_mem_nil _)
      · unfold specRemovedKeys
        rw [hpkeys]
        rfl
      · unfold specModifiedKeys
        rw [hpkeys]
        rfl
  · have hpf : prev.isEmptyB = false := by
      rw [hpe]
      simpa using hpr
    by_cases hcr : curr.rows.isEmpty = true
    · have hcrn : curr.rows = [] := List.isEmpty_iff.mp hcr
      have hckeys : tableKeys curr pk = [] := by
        unfold tableKeys
        rw [hcrn]
        rfl
      rw [compute_diff_curr_empty prev curr pk ig hpf (by rw [hce]; exact hcr)]
      refine ⟨?_, ?_, ?_, ?_, ?_⟩
      · rw [hcrn]
        rfl
      · symm
        apply List.filter_eq_self.mpr
        intro a ha
        rw [hckeys]
        exact decide_eq_true (List.not_mem_nil _)
      · unfold specAddedKeys
        rw [hckeys]
        rfl
      · unfold specRemovedKeys
        rw [hckeys]
        symm
        apply List.filter_eq_self.mpr
        intro a ha
        exact decide_eq_true (List.not_mem_nil _)
      · have hmod : specModifiedKeys prev curr pk ig = [] := by
          unfold specModifiedKeys
          rw [hckeys]
          apply List.filter_eq_nil_iff.mpr
          intro a ha
          simp
        rw [hmod]
        rfl
    · have hcf : curr.isEmptyB = false := by
        rw [hce]
        simpa using hcr
      rw [compute_diff_main_eq prev curr pk ig hpf hcf,
        addMissingCols_of_mem prev pk hp.2.1, addMissingCols_of_mem curr pk hc.2.1]
      refine ⟨rfl, rfl, tableKeys_addedOf prev curr pk, tableKeys_removedOf prev curr pk, ?_⟩
      show (modifiedOf prev curr pk ig).rows
        = (specModifiedKeys prev curr pk ig).map (specModRow prev curr pk)
      rw [modifiedOf_rows_eq prev curr pk ig hp hc,
        changedKeys_eq_spec prev curr pk ig hp hc]

/-! ### Claim C1 — the diff partitions -/

/-- C1: for normalized tables sharing a primary key, `compute_diff` yields
`added` = exactly the rows of `curr` whose key is absent from `prev`,
`removed` = exactly the rows of `prev` whose key is absent from `curr`, and
`modified` = one merged record per key present in both tables with at least one
non-ignored field differing; the three partitions are pairwise disjoint by key,
so every key of either table lands in at most one partition (keys in neither
are the unchanged ones). -/
theorem compute_diff_partitions (prev curr : Table) (pk ig : List String)
    (hp : Normalized pk prev) (hc : Normalized pk curr) :
    (compute_diff prev curr pk ig).added.rows
        = curr.rows.filter (fun r => decide (keyAt curr.cols r pk ∉ tableKeys prev pk))
      ∧ (compute_diff prev curr pk ig).removed.rows
        = prev.rows.filter (fun r => decide (keyAt prev.cols r pk ∉ tableKeys curr pk))
      ∧ tableKeys (compute_diff prev curr pk ig).added pk = specAddedKeys prev curr pk
      ∧ tableKeys (compute_diff prev curr pk ig).removed pk = specRemovedKeys prev curr pk
      ∧ (compute_diff prev curr pk ig).modified.rows
        = (specModifiedKeys prev curr pk ig).map (specModRow prev curr pk)
      ∧ ∀ k, ¬(k ∈ specAddedKeys prev curr pk ∧ k ∈ specRemovedKeys prev curr pk)
          ∧ ¬(k ∈ specAddedKeys prev curr pk ∧ k ∈ specModifiedKeys prev curr pk ig)
          ∧ ¬(k ∈ specRemovedKeys prev curr pk ∧ k ∈ specModifiedKeys prev curr pk ig) := by
  obtain ⟨h1, h2, h3, h4, h5⟩ := compute_diff_spec_all prev curr pk ig hp hc
  exact ⟨h1, h2, h3, h4, h5, fun k => spec_keys_disjoint prev curr pk ig k⟩

/-- C1 (witness): the partition characterisation applied at concrete
normalized tables with one added, one removed and one shared key. -/
theorem compute_diff_partitions_witness :
    Normalized ["k"] prevW ∧ Normalized ["k"] currW
      ∧ ((compute_diff prevW currW ["k"] []).added.rows
          = currW.rows.filter (fun r => decide (keyAt currW.cols r ["k"] ∉ tableKeys prevW ["k"]))
        ∧ (compute_diff prevW currW ["k"] []).removed.rows
          = prevW.rows.filter (fun r => decide (keyAt prevW.cols r ["k"] ∉ tableKeys currW ["k"]))
        ∧ tableKeys (compute_diff prevW currW ["k"] []).added ["k"]
          = specAddedKeys prevW currW ["k"]
        ∧ tableKeys (compute_diff prevW currW ["k"] []).removed ["k"]
          = specRemovedKeys prevW currW ["k"]
        ∧ (compute_diff prevW currW ["k"] []).modified.rows
          = (specModifiedKeys prevW currW ["k"] []).map (specModRow prevW currW ["k"])
        ∧ ∀ k, ¬(k ∈ specAddedKeys prevW currW ["k"] ∧ k ∈ specRemovedKeys prevW currW ["k"])
            ∧ ¬(k ∈ specAddedKeys prevW currW ["k"]
                ∧ k ∈ specModifiedKeys prevW currW ["k"] [])
            ∧ ¬(k ∈ specRemovedKeys prevW currW ["k"]
                ∧ k ∈ specModifiedKeys prevW currW ["k"] [])) :=
  ⟨by decide, by decide, compute_diff_partitions prevW currW ["k"] [] (by decide) (by decide)⟩

/-! ### Claim C6 — the merged `modified` record -/

/-- C6 (counterexample): the merged record does not hold every original column
twice — the primary-key column appears exactly once, unsuffixed: with both
snapshots carrying columns `k` (the key) and `v`, the modified frame's columns
lack both `k_before` and `k_after` although a key was classified modified. -/
theorem modified_merge_key_once_cex :
    "k" ∈ prevM.cols
      ∧ (compute_diff prevM currM ["k"] []).modified.rows ≠ []
      ∧ "k_before" ∉ (compute_diff prevM currM ["k"] []).modified.cols
      ∧ "k_after" ∉ (compute_diff prevM currM ["k"] []).modified.cols := by
  decide

/-- C6 (amended): each modified key yields a single merged record (keys are
unique and rows are exactly one per modified key).  The merged record holds the
full previous row followed by the current row's non-key cells, ignored fields
included.  In the merged schema, a non-key column present in both snapshots
appears twice with the `_before`/`_after` suffixes (ignored fields included),
while a primary-key column appears once, unsuffixed. -/
theorem modified_merge_structure (prev curr : Table) (pk ig : List String)
    (hp : Normalized pk prev) (hc : Normalized pk curr) :
    (specModifiedKeys prev curr pk ig).Nodup
      ∧ (compute_diff prev curr pk ig).modified.rows
        = (specModifiedKeys prev curr pk ig).map (specModRow prev curr pk)
      ∧ (compute_diff prev curr pk ig).modified.rows.length
        = (specModifiedKeys prev curr pk ig).length
      ∧ (specModifiedKeys prev curr pk ig ≠ [] →
          (∀ c0 ∈ prev.cols, c0 ∉ pk → c0 ∈ curr.cols →
            (c0 ++ "_before") ∈ (compute_diff prev curr pk ig).modified.cols
            ∧ (c0 ++ "_after") ∈ (compute_diff prev curr pk ig).modified.cols)
          ∧ ∀ k ∈ pk, k ∈ (compute_diff prev curr pk ig).modified.cols) := by
  have hnd : (specModifiedKeys prev curr pk ig).Nodup := hp.2.2.2.2.filter _
  obtain ⟨-, -, -, -, hrows⟩ := compute_diff_spec_all prev curr pk ig hp hc
  refine ⟨hnd, hrows, by rw [hrows, List.length_map], ?_⟩
  intro hne
  obtain ⟨k0, hk0⟩ := List.exists_mem_of_ne_nil _ hne
  have hk0m : k0 ∈ tableKeys prev pk ∧ k0 ∈ tableKeys curr pk := by
    unfold specModifiedKeys at hk0
    rw [List.mem_filter] at hk0
    have h2 := hk0.2
    rw [Bool.and_eq_true] at h2
    exact ⟨hk0.1, of_decide_eq_true h2.1⟩
  have hprne : prev.rows ≠ [] := by
    intro hprn
    have hT : tableKeys prev pk = [] := by
      unfold tableKeys
      rw [hprn]
      rfl
    rw [hT] at hk0m
    exact absurd hk0m.1 (List.not_mem_nil _)
  have hcrne : curr.rows ≠ [] := by
    intro hcrn
    have hT : tableKeys curr pk = [] := by
      unfold tableKeys
      rw [hcrn]
      rfl
    rw [hT] at hk0m
    exact absurd hk0m.2 (List.not_mem_nil _)
  have hpf : prev.isEmptyB = false := by
    rw [isEmptyB_of_normalized pk prev hp]
    rcases hl : prev.rows with _ | ⟨a, t⟩
    · exact absurd hl hprne
    · rfl
  have hcf : curr.isEmptyB = false := by
    rw [isEmptyB_of_normalized pk curr hc]
    rcases hl : curr.rows with _ | ⟨a, t⟩
    · exact absurd hl hcrne
    · rfl
  rw [compute_diff_main_eq prev curr pk ig hpf hcf,
    addMissingCols_of_mem prev pk hp.2.1, addMissingCols_of_mem curr pk hc.2.1]
  have hckne : ¬ (changedKeysOf prev curr pk ig).isEmpty = true := by
    rw [changedKeys_eq_spec prev curr pk ig hp hc, List.isEmpty_iff]
    exact hne
  have hcols : (modifiedOf prev curr pk ig).cols
      = prev.cols.map (fun x => if decide (x ∉ pk) && decide (x ∈ curr.cols)
          then x ++ "_before" else x)
        ++ (curr.cols.filter (fun x => decide (x ∉ pk))).map
          (fun x => if decide (x ∈ prev.cols) then x ++ "_after" else x) := by
    rw [modifiedOf_eq, if_neg hckne]
    rfl
  constructor
  · intro c0 hc1 hcp hc2
    constructor
    · show (c0 ++ "_before") ∈ (modifiedOf prev curr pk ig).cols
      rw [hcols]
      apply List.mem_append_left
      have himg : (fun x => if decide (x ∉ pk) && decide (x ∈ curr.cols)
          then x ++ "_before" else x) c0 = c0 ++ "_before" := by
        simp [hcp, hc2]
      rw [← himg]
      exact List.mem_map_of_mem _ hc1
    · show (c0 ++ "_after") ∈ (modifiedOf prev curr pk ig).cols
      rw [hcols]
      apply List.mem_append_right
      have hmem : c0 ∈ curr.cols.filter (fun x => decide (x ∉ pk)) :=
        List.mem_filter.mpr ⟨hc2, decide_eq_true hcp⟩
      have himg : (fun x => if decide (x ∈ prev.cols) then x ++ "_after" else x) c0
          = c0 ++ "_after" := by
        simp [hc1]
      rw [← himg]
      exact List.mem_map_of_mem _ hmem
  · intro k hk
    show k ∈ (modifiedOf prev curr pk ig).cols
    rw [hcols]
    apply List.mem_append_left
    have himg : (fun x => if decide (x ∉ pk) && decide (x ∈ curr.cols)
        then x ++ "_before" else x) k = k := by
      simp [hk]
    rw [← himg]
    exact List.mem_map_of_mem _ (hp.2.1 k hk)

/-- C6 (witness): the amended merge structure applied at concrete one-row
tables whose shared key has a changed `v` field. -/
theorem modified_merge_structure_witness :
    Normalized ["k"] prevM ∧ Normalized ["k"] currM
      ∧ ((specModifiedKeys prevM currM ["k"] []).Nodup
        ∧ (compute_diff prevM currM ["k"] []).modified.rows
          = (specModifiedKeys prevM currM ["k"] []).map (specModRow prevM currM ["k"])
        ∧ (compute_diff prevM currM ["k"] []).modified.rows.length
          = (specModifiedKeys prevM currM ["k"] []).length
        ∧ (specModifiedKeys prevM currM ["k"] [] ≠ [] →
            (∀ c0 ∈ prevM.cols, c0 ∉ ["k"] → c0 ∈ currM.cols →
              (c0 ++ "_before") ∈ (compute_diff prevM currM ["k"] []).modified.cols
              ∧ (c0 ++ "_after") ∈ (compute_diff prevM currM ["k"] []).modified.cols)
            ∧ ∀ k ∈ ["k"], k ∈ (compute_diff prevM currM ["k"] []).modified.cols)) :=
  ⟨by decide, by decide, modified_merge_structure prevM currM ["k"] [] (by decide) (by decide)⟩

/-- C4 (witness): key uniqueness of the normalized output on a concrete table
with a duplicated key. -/
theorem normalize_df_unique_keys_witness :
    (tableKeys (normalize_df (Table.mk ["k", "v"] [["1", "b"], ["1", "a"]]) ["k"] [])
      ["k"]).Nodup :=
  normalize_df_unique_keys (Table.mk ["k", "v"] [["1", "b"], ["1", "a"]]) ["k"] []

/-- C10 (witness): row conservation applied at a concrete one-record batch
whose probe fails. -/
theorem verify_conservation_witness :
    ((verify_removed_rows "3008" (fun _ => Except.error "e")
          [[("profile_url", "u")]]).confirmed
        ++ (verify_removed_rows "3008" (fun _ => Except.error "e")
          [[("profile_url", "u")]]).stillPresent).Perm
      ([[("profile_url", "u")]].map (routedRow ((awardMarkers "3008").map
        (fun ms url => genericVerifier (fun _ => Except.error "e") url ms))))
      ∧ (verify_removed_rows "3008" (fun _ => Except.error "e")
            [[("profile_url", "u")]]).confirmed.length
          + (verify_removed_rows "3008" (fun _ => Except.error "e")
            [[("profile_url", "u")]]).stillPresent.length
          = [[("profile_url", "u")]].length
      ∧ ∀ e ∈ (verify_removed_rows "3008" (fun _ => Except.error "e")
            [[("profile_url", "u")]]).errors,
          e ∈ (verify_removed_rows "3008" (fun _ => Except.error "e")
            [[("profile_url", "u")]]).confirmed :=
  verify_conservation "3008" (fun _ => Except.error "e") [[("profile_url", "u")]]
